import Mathlib

/-
Verification of the span-annotation conversion core
(`finetune/encoding/sequence_encoder.py`).

The embedding models:
  * `indico_to_finetune_sequence` (interval merge engine + gap filler),
  * `finetune_to_indico_sequence` (span reconstructor with optional
    whole-token snapping),
  * `assign_associations` (association linker).

Raw text is a `List Char`; Python string slicing `text[s:e]` is `pySlice`;
Python `str.find(sub, start)` (with negative-start slice semantics) is
`pyFind`; Python label *sets* are `Finset String`.  Machine floats appear
only as probabilities that are compared with `<`, so they are modelled as
rationals.  Python exceptions are modelled with `Except PyError`.
The subword encoder is called by both conversion functions but its outputs
(`tokens`, `char_locs`) are never used afterwards, so it is omitted; the
word tokenizer (spaCy) is an external collaborator and enters as explicit
`spacy_token_starts` / `spacy_token_ends` tables.
-/

namespace SeqEncoder

/-- Python slice `text[s:e]` for natural indices (negative indices never
arise in the modelled code paths on the indico side). -/
def pySlice (text : List Char) (s e : Nat) : List Char :=
  (text.drop s).take (e - s)

/-- Errors the modelled Python code can raise. -/
inductive PyError where
  /-- `ValueError: max() arg is an empty sequence` (gap filler, line 320). -/
  | valueErrorMaxEmpty : PyError
  /-- `FinetuneError` raised for a multi-label span in single-label mode. -/
  | finetuneError : PyError
  /-- `KeyError` (e.g. `annotation[0]` on a dict, line 339). -/
  | keyError : PyError
  /-- `IndexError` from list indexing. -/
  | indexError : PyError
  /-- Artificial constructor for fuel exhaustion of the merge loop; proved
  unreachable (`merge_loop_terminates`). -/
  | outOfFuel : PyError
deriving DecidableEq

/-- An annotation dict in the merged (label-set) form: keys `start`, `end`,
`label` (a Python set of labels) and `text`. -/
structure Ann where
  start : Nat
  end_ : Nat
  label : Finset String
  text : List Char
deriving DecidableEq

/-- An input annotation dict, before `label` is wrapped into a set:
`{'start': ..., 'end': ..., 'label': <single label>, 'text': ...}`. -/
structure RawAnn where
  start : Nat
  end_ : Nat
  label : String
  text : List Char
deriving DecidableEq

/-- `label['label'] = set([label['label']])` (line 270). -/
def wrapAnn (r : RawAnn) : Ann :=
  ⟨r.start, r.end_, {r.label}, r.text⟩

/-- Sort key relation used by `sort_by_start` / `sorted(key=lambda x: x['start'])`. -/
def startLe (a b : Ann) : Prop := a.start ≤ b.start

instance : DecidableRel startLe := fun a b => Nat.decLe a.start b.start

instance : IsTotal Ann startLe := ⟨fun a b => Nat.le_total a.start b.start⟩

instance : IsTrans Ann startLe := ⟨fun _ _ _ => Nat.le_trans⟩

/-- The same key relation on raw (single-label) annotations. -/
def startLeRaw (a b : RawAnn) : Prop := a.start ≤ b.start

instance : DecidableRel startLeRaw := fun a b => Nat.decLe a.start b.start

instance : IsTotal RawAnn startLeRaw := ⟨fun a b => Nat.le_total a.start b.start⟩

instance : IsTrans RawAnn startLeRaw := ⟨fun _ _ _ => Nat.le_trans⟩

/-- `sort_by_start` (line 158); Python's `sorted` is a stable sort, modelled
by insertion sort on the `start` key. -/
def sort_by_start (l : List Ann) : List Ann := l.insertionSort startLe

/-- `sorted(label_seq, key=lambda x: x["start"])` on input annotations. -/
def sort_by_start_raw (l : List RawAnn) : List RawAnn := l.insertionSort startLeRaw

/-- `overlap` (lines 162-166). -/
def overlap (current ann : Ann) : Bool :=
  decide ((current.start < ann.end_ ∧ ann.end_ ≤ current.end_) ∨
          (ann.start < current.end_ ∧ current.end_ ≤ ann.end_))

/-- `overlap_handler` (lines 169-207): split two overlapping spans into three
chunks. -/
def overlap_handler (current ann : Ann) (text : List Char) : List Ann :=
  let first := if current.start ≤ ann.start then current else ann
  let second := if current.start ≤ ann.start then ann else current
  let final_delimiter := min first.end_ second.end_
  let final_label := if second.end_ > first.end_ then second.label else first.label
  let e := max first.end_ second.end_
  let first_chunk : Ann :=
    ⟨first.start, second.start, first.label, pySlice text first.start second.start⟩
  let second_chunk : Ann :=
    ⟨second.start, final_delimiter, first.label ∪ second.label,
      pySlice text second.start final_delimiter⟩
  let third_chunk : Ann :=
    ⟨final_delimiter, e, final_label, pySlice text final_delimiter e⟩
  [first_chunk, second_chunk, third_chunk]

/-- Result of the `for annotation in sort_by_start(merged_annotations)` scan
(lines 280-296): either the popped annotation is appended, or some merged
annotation overlaps it and a split is triggered. -/
inductive ScanResult where
  | append : ScanResult
  | split : Ann → ScanResult
deriving DecidableEq

/-- The scan loop body: on the first merged annotation whose start exceeds
`current`'s end, append (break); on the first overlap, split (break);
otherwise fall through to the `else:` append. -/
def scanMerged (current : Ann) : List Ann → ScanResult
  | [] => .append
  | a :: rest =>
    if current.end_ < a.start then .append
    else if overlap current a then .split a
    else scanMerged current rest

/-- Span length `end - start` of one annotation. -/
def annMass (a : Ann) : Nat := a.end_ - a.start

/-- Total span-length mass of a list of annotations. -/
def massList (l : List Ann) : Nat := (l.map annMass).sum

/-- Termination measure for the worklist loop: each iteration strictly
decreases `3 * (mass of queue + mass of merged) + queue length`. -/
def mergeMeasure (queue merged : List Ann) : Nat :=
  3 * (massList queue + massList merged) + queue.length + 1

/-- The `while len(queue):` worklist loop (lines 272-296), with explicit fuel.
`merged_annotations.remove(annotation)` is `List.erase` (first structural
match removed, as with Python `==` on dicts). -/
def mergeLoop (text : List Char) : Nat → List Ann → List Ann → Option (List Ann)
  | 0, _, _ => none
  | _ + 1, [], merged => some merged
  | fuel + 1, current :: rest, merged =>
    if current.start = current.end_ then
      mergeLoop text fuel rest merged
    else
      match scanMerged current (sort_by_start merged) with
      | .append => mergeLoop text fuel rest (merged ++ [current])
      | .split a => mergeLoop text fuel (overlap_handler current a text ++ rest) (merged.erase a)

/-- The initial queue of one document: input annotations sorted by start
(line 258 and line 268; `sorted` twice) with labels wrapped into sets. -/
def initQueue (labelSeq : List RawAnn) : List Ann :=
  sort_by_start ((sort_by_start_raw labelSeq).map wrapAnn)

/-- A none-labeled gap span (`label: [none_value]`, lines 309-314). -/
def noneSpan (text : List Char) (noneValue : String) (s e : Nat) : Ann :=
  ⟨s, e, {noneValue}, pySlice text s e⟩

/-- The `# Add none labels` loop (lines 304-317): walk the merged spans in
start order, inserting a none span in front of every gap. -/
def gapFillAux (text : List Char) (noneValue : String) : Nat → List Ann → List Ann
  | _, [] => []
  | i, a :: rest =>
    (if i < a.start then [noneSpan text noneValue i a.start] else []) ++
      a :: gapFillAux text noneValue a.end_ rest

/-- The single-label flattening loop (lines 329-339).  For each annotation in
order: a multi-label span raises `FinetuneError`; otherwise the code executes
`annotation['label'] = annotation[0]`, which indexes a dict with the integer
`0` and always raises `KeyError`. -/
def flattenSingleLabel : List Ann → Except PyError Unit
  | [] => .ok ()
  | a :: _ =>
    if 1 < a.label.card then .error .finetuneError else .error .keyError

/-- Per-document body of `indico_to_finetune_sequence` (lines 251-342),
returning the final `all_annotations` list. -/
def processDocument (text : List Char) (labelSeq : List RawAnn)
    (multiLabel : Bool) (noneValue : String) : Except PyError (List Ann) :=
  let queue := initQueue labelSeq
  match mergeLoop text (mergeMeasure queue []) queue [] with
  | none => .error .outOfFuel
  | some merged =>
    let merged := sort_by_start merged
    let base := gapFillAux text noneValue 0 merged
    -- end_idx = max([annotation['end'] for annotation in all_annotations])
    match (base.map Ann.end_).max? with
    | none => .error .valueErrorMaxEmpty
    | some endIdx =>
      let allAnns :=
        base ++ (if endIdx ≠ text.length then [noneSpan text noneValue endIdx text.length] else [])
      if multiLabel then .ok allAnns
      else
        match flattenSingleLabel allAnns with
        | .error e => .error e
        | .ok _ => .ok allAnns

/-- `tuple(annotation['label'])`: a Python set iterated into a tuple; the
iteration order of a Python set is unspecified, so the canonical sorted
enumeration is used (computed by a structural insertion sort on the
underlying multiset, which is well defined because sorted permutations of
one another coincide). -/
def labelTuple (s : Finset String) : List String :=
  Quot.liftOn s.val (fun l => l.insertionSort (fun a b : String => a ≤ b))
    (fun l1 l2 h =>
      List.eq_of_perm_of_sorted
        ((List.perm_insertionSort _ l1).trans
          (List.Perm.trans h (List.perm_insertionSort _ l2).symm))
        (List.sorted_insertionSort _ l1) (List.sorted_insertionSort _ l2))

/-- `doc_subseqs` (line 341). -/
def docSubseqs (anns : List Ann) : List (List Char) := anns.map Ann.text

/-- `doc_labels` (line 342). -/
def docLabels (anns : List Ann) : List (List String) :=
  anns.map fun a => labelTuple a.label

/-- `indico_to_finetune_sequence` (lines 210-350), restricted to the outputs
that are actually populated (`all_subseqs`, `all_labels`; the association
accumulators stay empty).  `labels=None` becomes `[[]] * len(texts)`. -/
def indico_to_finetune_sequence (texts : List (List Char))
    (labels : Option (List (List RawAnn))) (multiLabel : Bool) (noneValue : String) :
    Except PyError (List (List (List Char)) × List (List (List String))) := do
  let labs := labels.getD (List.replicate texts.length [])
  let docs ← (texts.zip labs).mapM fun tl => processDocument tl.1 tl.2 multiLabel noneValue
  return (docs.map docSubseqs, docs.map docLabels)

/-! ### Span reconstructor (`finetune_to_indico_sequence`, lines 44-155) -/

/-- An output annotation dict (`start`, `end`, `label`, `text`); `confidence`
and `associations` are omitted because the modelled calls pass
`probs=None, associations=None`. -/
structure IndAnn where
  start : Nat
  end_ : Nat
  label : String
  text : List Char
deriving DecidableEq

/-- A raw label for one substring: either a bare label
(`not isinstance(raw_label, tuple)` → `multi_label = False`) or a tuple of
labels (`multi_label = True`). -/
inductive RawLabel where
  | single : String → RawLabel
  | tuple : List String → RawLabel
deriving DecidableEq

/-- `label_list` (lines 92-97). -/
def RawLabel.labelList : RawLabel → List String
  | .single l => [l]
  | .tuple ls => ls

/-- `isinstance(raw_label, tuple)`. -/
def RawLabel.isTuple : RawLabel → Bool
  | .single _ => false
  | .tuple _ => true

/-- Forward scan for `sub` in `text`; `fuel` counts the remaining scan
steps (structural recursion so that the kernel can evaluate it). -/
def findFromAux (text sub : List Char) : Nat → Nat → Option Nat
  | i, fuel =>
    if sub.isPrefixOf (text.drop i) then some i
    else
      match fuel with
      | 0 => none
      | fuel + 1 => findFromAux text sub (i + 1) fuel

/-- First occurrence of `sub` in `text` at position `≥ i`, scanning forward
up to position `text.length`. -/
def findFromNat (text sub : List Char) (i : Nat) : Option Nat :=
  findFromAux text sub i (text.length - i)

/-- Python `raw_text.find(sub, start)`: `start` is adjusted with slice
semantics (negative values count from the end, clamped below at `0` but not
above), and a start beyond the text yields `-1`. -/
def pyFind (text sub : List Char) (start : Int) : Int :=
  let n : Int := text.length
  let s : Int := if start < 0 then max (start + n) 0 else start
  if n < s then -1
  else
    match findFromNat text sub s.toNat with
    | some i => (i : Int)
    | none => -1

/-- Python `str.strip()`. -/
def pyStrip (l : List Char) : List Char :=
  ((l.dropWhile Char.isWhitespace).reverse.dropWhile Char.isWhitespace).reverse

/-- Python list indexing with negative-index wraparound; `none` is an
`IndexError`. -/
def pyGetNat (l : List Nat) (i : Int) : Option Nat :=
  if 0 ≤ i then l.get? i.toNat
  else if 0 ≤ i + l.length then l.get? (i + (l.length : Int)).toNat
  else none

/-- Fuel-structured form of the start-snapping walk; the walk advances at
most `starts.length - idx` times, which the initial fuel covers. -/
def snapStartAux (starts : List Nat) (aStart : Nat) : Nat → Nat → Nat
  | idx, fuel =>
    if idx < starts.length ∧ starts.getD idx 0 ≤ aStart then
      match fuel with
      | 0 => idx
      | fuel + 1 => snapStartAux starts aStart (idx + 1) fuel
    else idx

/-- The start-snapping walk (lines 123-124):
`while start_idx < n_spacy_tokens and annotation_start >= spacy_token_starts[start_idx]: start_idx += 1`. -/
def snapStartIdx (starts : List Nat) (aStart : Nat) (idx : Nat) : Nat :=
  snapStartAux starts aStart idx (starts.length - idx)

/-- Fuel-structured form of the end-snapping walk. -/
def snapEndAux (ends : List Nat) (aEnd : Nat) : Nat → Nat → Nat
  | idx, fuel =>
    if idx < ends.length - 1 ∧ ends.getD idx 0 < aEnd then
      match fuel with
      | 0 => idx
      | fuel + 1 => snapEndAux ends aEnd (idx + 1) fuel
    else idx

/-- The end-snapping walk (lines 126-127):
`while end_idx < (n_spacy_tokens - 1) and annotation_end > spacy_token_ends[end_idx]: end_idx += 1`. -/
def snapEndIdx (ends : List Nat) (aEnd : Nat) (idx : Nat) : Nat :=
  snapEndAux ends aEnd idx (ends.length - idx)

/-- The per-document mutable state of the reconstruction loop:
`raw_annotation_start` (the find cursor), the snapping cursors `start_idx`
and `end_idx`, `annotation_ranges` and `doc_annotations`. -/
structure ReconState where
  cursor : Int
  startIdx : Nat
  endIdx : Nat
  ranges : List (Nat × Nat × String)
  anns : List IndAnn
deriving DecidableEq

/-- Lines 148-151: append the annotation unless its `(start, end, label)`
triple was already emitted. -/
def emitAnn (text : List Char) (s e : Nat) (label : String)
    (st : ReconState) : ReconState :=
  if (s, e, label) ∈ st.ranges then st
  else { st with ranges := st.ranges ++ [(s, e, label)],
                 anns := st.anns ++ [⟨s, e, label, pySlice text s e⟩] }

/-- Body of `for label in label_list:` (lines 99-151) for one label. -/
def processLabel (text : List Char) (spacyStarts spacyEnds : List Nat)
    (noneValue : String) (subtok : Bool) (multiLabel : Bool)
    (subStr : List Char) (label : String) (st : ReconState) :
    Except PyError ReconState :=
  let stripped := pyStrip subStr
  let found := pyFind text stripped st.cursor
  -- the find cursor is updated before the not-found check, so a failure
  -- leaves it at -1 for the next candidate
  if found = -1 then .ok { st with cursor := -1 }
  else
    let st := { st with cursor := found }
    let aStart := found.toNat
    let aEnd := (found + stripped.length).toNat
    if subtok then
      if label = noneValue then .ok st
      else .ok (emitAnn text aStart aEnd label st)
    else
      let st := if multiLabel then { st with startIdx := 0, endIdx := 0 } else st
      if label = noneValue then .ok st
      else
        let sIdx := snapStartIdx spacyStarts aStart st.startIdx
        -- annotation_start = spacy_token_starts[start_idx - 1]
        match pyGetNat spacyStarts ((sIdx : Int) - 1) with
        | none => .error .indexError
        | some aStart2 =>
          let eIdx := snapEndIdx spacyEnds aEnd st.endIdx
          -- annotation_end = spacy_token_ends[end_idx]
          match spacyEnds.get? eIdx with
          | none => .error .indexError
          | some aEnd2 =>
            .ok (emitAnn text aStart2 aEnd2 label
                  { st with startIdx := sIdx, endIdx := eIdx })

/-- One candidate `(sub_str, raw_label)` of the document (lines 91-151). -/
def processCandidate (text : List Char) (spacyStarts spacyEnds : List Nat)
    (noneValue : String) (subtok : Bool) (cand : List Char × RawLabel)
    (st : ReconState) : Except PyError ReconState :=
  cand.2.labelList.foldlM
    (fun s lab =>
      processLabel text spacyStarts spacyEnds noneValue subtok cand.2.isTuple cand.1 lab s)
    st

/-- All candidates of a document, threading the mutable state. -/
def processCandidates (text : List Char) (spacyStarts spacyEnds : List Nat)
    (noneValue : String) (subtok : Bool) (cands : List (List Char × RawLabel))
    (st : ReconState) : Except PyError ReconState :=
  cands.foldlM
    (fun s cand => processCandidate text spacyStarts spacyEnds noneValue subtok cand s) st

/-- Sort key relation for output annotations. -/
def startLeInd (a b : IndAnn) : Prop := a.start ≤ b.start

instance : DecidableRel startLeInd := fun a b => Nat.decLe a.start b.start

instance : IsTotal IndAnn startLeInd := ⟨fun a b => Nat.le_total a.start b.start⟩

instance : IsTrans IndAnn startLeInd := ⟨fun _ _ _ => Nat.le_trans⟩

/-- `sorted(doc_annotations, key=lambda x: x['start'])` (line 153). -/
def sortIndByStart (l : List IndAnn) : List IndAnn := l.insertionSort startLeInd

/-- Per-document body of `finetune_to_indico_sequence` (lines 80-154) with
`probs=None, associations=None`.  `spacyStarts` / `spacyEnds` are the word
tokenizer's boundary tables (`spacy_token_starts`, `spacy_token_ends`). -/
def finetune_to_indico_doc (text : List Char) (docSeq : List (List Char))
    (labelSeq : List RawLabel) (spacyStarts spacyEnds : List Nat)
    (noneValue : String) (subtok : Bool) : Except PyError (List IndAnn) := do
  let st ← processCandidates text spacyStarts spacyEnds noneValue subtok
    (docSeq.zip labelSeq) ⟨0, 0, 0, [], []⟩
  return sortIndByStart st.anns

/-! ### Association linker (`assign_associations`, lines 10-41) -/

/-- One raw candidate tuple
`(bpe_idx, candidate_idx, candidate_label, candidate_prob)`. -/
structure AssocTup where
  bpeIdx : Nat
  candIdx : Nat
  candLabel : String
  prob : ℚ
deriving DecidableEq

/-- One resolved candidate
`(idx_lookup[candidate_idx], candidate_label, candidate_prob)`. -/
structure Cand where
  index : Nat
  relationship : String
  prob : ℚ
deriving DecidableEq

/-- Python dict assignment `d[k] = v` for the `idx_lookup` dict: a later
assignment shadows an earlier one. -/
def dictInsert (m : List (Nat × Nat)) (k v : Nat) : List (Nat × Nat) :=
  (k, v) :: m

/-- Python dict lookup, `none` meaning `k not in d`. -/
def dictGet (m : List (Nat × Nat)) (k : Nat) : Option Nat :=
  (m.find? fun p => p.1 == k).map Prod.snd

/-- Pass 1 (lines 12-19): map each `bpe_idx` of an active (non-none) label
occurrence to that occurrence's running index. -/
def buildLookup (noneValue : String) :
    List (String × List AssocTup) → Nat → List (Nat × Nat) → List (Nat × Nat)
  | [], _, m => m
  | (label, association) :: rest, active, m =>
    if label = noneValue then buildLookup noneValue rest active m
    else
      buildLookup noneValue rest (active + 1)
        (association.foldl (fun acc t => dictInsert acc t.bpeIdx active) m)

/-- `candidates[idx_lookup[bpe_idx]].append(...)` on an insertion-ordered
dict with list values (lines 33-36). -/
def candAppend (m : List (Nat × List Cand)) (k : Nat) (c : Cand) :
    List (Nat × List Cand) :=
  match m with
  | [] => [(k, [c])]
  | (k1, v) :: rest =>
    if k1 = k then (k1, v ++ [c]) :: rest else (k1, v) :: candAppend rest k c

/-- Lookup in the `candidates` dict. -/
def candGet (m : List (Nat × List Cand)) (k : Nat) : Option (List Cand) :=
  (m.find? fun p => p.1 == k).map Prod.snd

/-- Pass 2 inner loops (lines 28-36), folded over the flattened candidate
tuples of one document.  A tuple that passes the filter but whose `bpe_idx`
is not in `idx_lookup` raises `KeyError` (line 33). -/
def collectCandidates (noneValue : String) (lookup : List (Nat × Nat)) :
    List AssocTup → List (Nat × List Cand) → Except PyError (List (Nat × List Cand))
  | [], m => .ok m
  | t :: rest, m =>
    if t.candLabel = noneValue ∨ dictGet lookup t.candIdx = none then
      collectCandidates noneValue lookup rest m
    else
      match dictGet lookup t.bpeIdx, dictGet lookup t.candIdx with
      | some k, some j =>
        collectCandidates noneValue lookup rest (candAppend m k ⟨j, t.candLabel, t.prob⟩)
      | _, _ => .error .keyError

/-- Python `max(v, key=lambda x: x[2])`: the first element of maximal
probability (ties keep the earlier element). -/
def firstMax (c : Cand) (cs : List Cand) : Cand :=
  cs.foldl (fun best x => if best.prob < x.prob then x else best) c

/-- `{k: max(v, key=lambda x: x[2]) for k, v in candidates.items()}`
(line 39); values are nonempty by construction. -/
def pickMax (m : List (Nat × List Cand)) : List (Nat × Cand) :=
  m.filterMap fun p =>
    match p.2 with
    | [] => none
    | c :: cs => some (p.1, firstMax c cs)

/-- `assign_associations` (lines 10-41).  The guard
`if doc_label == none_value: continue` (line 25) compares a per-document
*list* of labels against a single label value and is never true, so every
document contributes one entry of `all_candidates`. -/
def assign_associations (labels : List (List String))
    (associations : List (List (List AssocTup))) (noneValue : String) :
    Except PyError (List (List (Nat × Cand))) := do
  let zipped := labels.zip associations
  let lookups := zipped.map fun dl => buildLookup noneValue (dl.1.zip dl.2) 0 []
  (lookups.zip zipped).mapM fun lz => do
    let m ← collectCandidates noneValue lz.1 lz.2.2.flatten []
    return pickMax m

/-- Spec-side definition for C7 (refinement comparison), following the
spec's words: the valid candidates of occurrence `k`, in encounter order —
tuples whose candidate label is not the none-value, whose target index maps
to a known active occurrence, and whose own token maps to occurrence `k`. -/
def specValidCandidates (noneValue : String) (lookup : List (Nat × Nat))
    (tups : List AssocTup) (k : Nat) : List Cand :=
  tups.filterMap fun t =>
    if t.candLabel = noneValue then none
    else
      match dictGet lookup t.candIdx with
      | none => none
      | some j =>
        match dictGet lookup t.bpeIdx with
        | none => none
        | some k2 => if k2 = k then some ⟨j, t.candLabel, t.prob⟩ else none



/-- Well-formedness of one annotation record relative to the document text:
indices within bounds, `start <= end`, and the cached text is the slice
(spec data model, section 3). -/
def wfAnn (text : List Char) (a : Ann) : Prop :=
  a.start ≤ a.end_ ∧ a.end_ ≤ text.length ∧ a.text = pySlice text a.start a.end_

/-- Interval disjointness of two annotations (non-overlap). -/
def DisjAnn (a b : Ann) : Prop := a.end_ ≤ b.start ∨ b.end_ ≤ a.start

/-- The list tiles the document from position `i`: each span starts where
the previous one ended. -/
def chainFrom : Nat → List Ann → Prop
  | _, [] => True
  | i, a :: rest => a.start = i ∧ chainFrom a.end_ rest

/-- End position of a tiling that starts at `i`. -/
def chainEnd : Nat → List Ann → Nat
  | i, [] => i
  | _, a :: rest => chainEnd a.end_ rest


/-- Raw-annotation version of `chainFrom`: the spans tile the document from
position `i` (non-overlapping and fully covering, in order). -/
def chainFromRaw : Nat → List RawAnn → Prop
  | _, [] => True
  | i, a :: rest => a.start = i ∧ chainFromRaw a.end_ rest

/-- Raw-annotation version of `chainEnd`. -/
def chainEndRaw : Nat → List RawAnn → Nat
  | i, [] => i
  | _, a :: rest => chainEndRaw a.end_ rest

/-- Each span's (stripped) text is found by the cursor-driven search exactly
at its own start: the cursor before span `k` is span `k-1`'s start (the code
resets the cursor to the found position, not past it). -/
def findsSelf (text : List Char) : Int → List RawAnn → Prop
  | _, [] => True
  | c, a :: rest =>
    pyFind text (pyStrip a.text) c = (a.start : Int) ∧ findsSelf text (a.start : Int) rest

/-- The output annotation reconstructed for one input span. -/
def reconAnn (text : List Char) (a : RawAnn) : IndAnn :=
  ⟨a.start, a.end_, a.label, pySlice text a.start a.end_⟩

end SeqEncoder

deriving instance DecidableEq for Except

namespace SeqEncoder

/-! ## Theorems -/

/-- Helper: a queue of degenerate spans is consumed without touching `merged`. -/
theorem mergeLoop_all_deg (text : List Char) (q : List Ann) :
    ∀ f : Nat, (∀ a ∈ q, a.start = a.end_) → q.length < f →
      mergeLoop text f q [] = some [] := by
  induction q with
  | nil =>
    intro f _ hf
    cases f with
    | zero => omega
    | succ f => rfl
  | cons a rest ih =>
    intro f hdeg hf
    cases f with
    | zero => omega
    | succ f =>
      have ha : a.start = a.end_ := hdeg a (List.mem_cons_self a rest)
      show mergeLoop text (f + 1) (a :: rest) [] = some []
      simp only [mergeLoop, if_pos ha]
      exact ih f (fun x hx => hdeg x (List.mem_cons_of_mem a hx))
        (by simp only [List.length_cons] at hf; omega)

/-- Helper: membership in the initial queue reflects the input annotations. -/
theorem mem_initQueue {labelSeq : List RawAnn} {a : Ann} :
    a ∈ initQueue labelSeq ↔ ∃ r ∈ labelSeq, wrapAnn r = a := by
  unfold initQueue sort_by_start sort_by_start_raw
  rw [List.mem_insertionSort]
  constructor
  · intro h
    obtain ⟨r, hr, rfl⟩ := List.mem_map.1 h
    exact ⟨r, (List.mem_insertionSort _).1 hr, rfl⟩
  · rintro ⟨r, hr, rfl⟩
    exact List.mem_map.2 ⟨r, (List.mem_insertionSort _).2 hr, rfl⟩

/-- Claim C10: a document whose annotation list is empty or contains only
degenerate (`start == end`) spans — e.g. at inference time when `labels is
None` — makes `indico_to_finetune_sequence` raise (`max()` over an empty
sequence in the gap filler) instead of returning a single none-labeled span
covering the whole raw text. -/
theorem claim_c10_empty_annotations_error (text : List Char) (anns : List RawAnn)
    (multiLabel : Bool) (noneValue : String)
    (hdeg : ∀ a ∈ anns, a.start = a.end_) :
    processDocument text anns multiLabel noneValue = .error .valueErrorMaxEmpty := by
  have hq : ∀ a ∈ initQueue anns, a.start = a.end_ := by
    intro a ha
    obtain ⟨r, hr, rfl⟩ := mem_initQueue.1 ha
    exact hdeg r hr
  simp only [processDocument]
  rw [mergeLoop_all_deg text (initQueue anns) _ hq (by unfold mergeMeasure; omega)]
  rfl

/-- Witness for C10 at a concrete degenerate-span input. -/
theorem claim_c10_witness :
    processDocument (String.toList "ab") [⟨1, 1, "X", []⟩] true "<PAD>" =
      .error .valueErrorMaxEmpty :=
  claim_c10_empty_annotations_error _ _ _ _ (by decide)

/-- Claim C2: the split of two overlapping spans returns exactly three
pieces — `[first.start, second.start)` with `first`'s label,
`[second.start, min(first.end, second.end))` with the union label, and
`[min(first.end, second.end), max(first.end, second.end))` with
`second.label` if `second.end > first.end` else `first.label` — where
`first` is the span of smaller start.  In particular the full merge of
`A=[0,10,"X")` with `B=[5,15,"Y")` yields `[0,5)→{X}`, `[5,10)→{X,Y}`,
`[10,15)→{Y}`, and of `A=[0,20,"X")` with `B=[5,10,"Y")` yields
`[0,5)→{X}`, `[5,10)→{X,Y}`, `[10,20)→{X}`. -/
theorem claim_c2_overlap_split :
    (∀ (current ann : Ann) (text : List Char),
      overlap_handler current ann text =
        (let first := if current.start ≤ ann.start then current else ann
         let second := if current.start ≤ ann.start then ann else current
         [⟨first.start, second.start, first.label, pySlice text first.start second.start⟩,
          ⟨second.start, min first.end_ second.end_, first.label ∪ second.label,
            pySlice text second.start (min first.end_ second.end_)⟩,
          ⟨min first.end_ second.end_, max first.end_ second.end_,
            if second.end_ > first.end_ then second.label else first.label,
            pySlice text (min first.end_ second.end_) (max first.end_ second.end_)⟩])) ∧
    processDocument (String.toList "abcdefghijklmno")
        [⟨0, 10, "X", pySlice (String.toList "abcdefghijklmno") 0 10⟩,
         ⟨5, 15, "Y", pySlice (String.toList "abcdefghijklmno") 5 15⟩] true "<PAD>" =
      .ok [⟨0, 5, {"X"}, String.toList "abcde"⟩,
           ⟨5, 10, {"X", "Y"}, String.toList "fghij"⟩,
           ⟨10, 15, {"Y"}, String.toList "klmno"⟩] ∧
    processDocument (String.toList "abcdefghijklmnopqrst")
        [⟨0, 20, "X", pySlice (String.toList "abcdefghijklmnopqrst") 0 20⟩,
         ⟨5, 10, "Y", pySlice (String.toList "abcdefghijklmnopqrst") 5 10⟩] true "<PAD>" =
      .ok [⟨0, 5, {"X"}, String.toList "abcde"⟩,
           ⟨5, 10, {"X", "Y"}, String.toList "fghij"⟩,
           ⟨10, 20, {"X"}, String.toList "klmnopqrst"⟩] := by
  refine ⟨?_, by decide, by decide⟩
  intro current ann text
  by_cases h : current.start ≤ ann.start <;> simp [overlap_handler, h]

/-- Helper: the single-label flattening loop raises on any nonempty list. -/
theorem flattenSingleLabel_cons_errors (a : Ann) (t : List Ann) :
    ∃ e, flattenSingleLabel (a :: t) = .error e := by
  simp only [flattenSingleLabel]
  by_cases h : 1 < a.label.card
  · exact ⟨.finetuneError, by rw [if_pos h]⟩
  · exact ⟨.keyError, by rw [if_neg h]⟩

/-- Claim C5 (code bug, line 339): in single-label mode the flattening step
executes `annotation['label'] = annotation[0]`, indexing a dict with the
integer `0`, so a document whose resolved spans all carry exactly one label
raises `KeyError` instead of completing with flattened labels; in fact no
document at all completes in single-label mode. -/
theorem claim_c5_single_label_mode_never_completes :
    processDocument (String.toList "ab") [⟨0, 2, "X", String.toList "ab"⟩] false "<PAD>" =
        .error .keyError ∧
    ∀ (text : List Char) (labelSeq : List RawAnn) (noneValue : String),
      ∃ e, processDocument text labelSeq false noneValue = .error e := by
  refine ⟨by decide, ?_⟩
  intro text labelSeq noneValue
  simp only [processDocument]
  cases hm : mergeLoop text (mergeMeasure (initQueue labelSeq) []) (initQueue labelSeq) [] with
  | none => exact ⟨.outOfFuel, by simp [hm]⟩
  | some merged =>
    cases hx : (List.map Ann.end_ (gapFillAux text noneValue 0 (sort_by_start merged))).max? with
    | none => exact ⟨.valueErrorMaxEmpty, by simp [hm, hx]⟩
    | some endIdx =>
      cases hbase : gapFillAux text noneValue 0 (sort_by_start merged) with
      | nil => rw [hbase] at hx; simp at hx
      | cons a t =>
        obtain ⟨e, he⟩ := flattenSingleLabel_cons_errors a
          (t ++ if endIdx ≠ text.length then [noneSpan text noneValue endIdx text.length] else [])
        rw [hbase] at hx
        refine ⟨e, ?_⟩
        simp only [hm, hbase, hx, List.cons_append, Bool.false_eq_true, if_false, he]

/-- Claim C6 counterexample: after the candidate `"zz"` is not found in
`"ab"`, the find cursor is `-1`, so the sibling `"a"` — which occurs in the
raw text and, processed alone, is emitted as `(0,1,"Y")` — is searched only
from position `len-1` and silently dropped, instead of being emitted as
usual. -/
theorem claim_c6_counterexample :
    finetune_to_indico_doc (String.toList "ab")
        [String.toList "zz", String.toList "a"] [.single "X", .single "Y"]
        [] [] "<PAD>" true = .ok [] ∧
    finetune_to_indico_doc (String.toList "ab")
        [String.toList "a"] [.single "Y"] [] [] "<PAD>" true =
      .ok [⟨0, 1, "Y", ['a']⟩] := by
  exact ⟨by decide, by decide⟩

/-- Claim C6 (amended): a candidate whose stripped text is not found at or
after the cursor produces zero annotations, only a warning and no exception,
and the document's later siblings are still processed — but with the search
cursor set to `-1`, i.e. (by Python negative-index semantics) they are
searched only from position `len(raw_text) - 1` onwards, so a sibling
occurring only before that position is dropped rather than emitted as
usual. -/
theorem claim_c6_not_found_resilience (text subStr : List Char) (lab : String)
    (rest : List (List Char × RawLabel)) (st : ReconState)
    (spacyStarts spacyEnds : List Nat) (noneValue : String) (subtok : Bool)
    (h : pyFind text (pyStrip subStr) st.cursor = -1) :
    processCandidates text spacyStarts spacyEnds noneValue subtok
        ((subStr, .single lab) :: rest) st =
      processCandidates text spacyStarts spacyEnds noneValue subtok rest
        { st with cursor := -1 } := by
  simp only [processCandidates, List.foldlM, processCandidate, RawLabel.labelList,
    RawLabel.isTuple, processLabel, h, if_pos]
  rfl

/-- Witness for the amended C6 at the concrete counterexample inputs. -/
theorem claim_c6_witness :
    pyFind (String.toList "ab") (pyStrip (String.toList "zz")) (0 : Int) = -1 ∧
    processCandidates (String.toList "ab") [] [] "<PAD>" true
        [(String.toList "zz", .single "X"), (String.toList "a", .single "Y")]
        ⟨0, 0, 0, [], []⟩ =
      processCandidates (String.toList "ab") [] [] "<PAD>" true
        [(String.toList "a", .single "Y")] ⟨-1, 0, 0, [], []⟩ :=
  ⟨by decide,
    claim_c6_not_found_resilience (String.toList "ab") (String.toList "zz") "X"
      [(String.toList "a", .single "Y")] ⟨0, 0, 0, [], []⟩ [] [] "<PAD>" true (by decide)⟩

theorem sorted_get_le_of_le {l : List Nat} (h : l.Sorted (fun a b => a ≤ b)) {i j : Nat}
    (hij : i ≤ j) (hj : j < l.length) :
    l.get ⟨i, Nat.lt_of_le_of_lt hij hj⟩ ≤ l.get ⟨j, hj⟩ :=
  h.rel_get_of_le hij

theorem snapStartAux_zero (starts : List Nat) (aStart idx : Nat) :
    snapStartAux starts aStart idx 0 = idx := by
  simp [snapStartAux]

theorem snapStartAux_succ (starts : List Nat) (aStart idx fuel : Nat) :
    snapStartAux starts aStart idx (fuel + 1) =
      if idx < starts.length ∧ starts.getD idx 0 ≤ aStart then
        snapStartAux starts aStart (idx + 1) fuel
      else idx := by
  rw [snapStartAux]

theorem snapStart_terminal (starts : List Nat) (aStart : Nat)
    (hs : starts.Sorted (fun a b => a ≤ b)) (p : Fin starts.length)
    (hp : starts.get p = aStart) (idx : Nat)
    (hstop : starts.length ≤ idx ∨ (idx < starts.length ∧ aStart < starts.getD idx 0))
    (hinv : idx = 0 ∨ (1 ≤ idx ∧ ∃ v, starts.get? (idx - 1) = some v ∧ v ≤ aStart)) :
    1 ≤ idx ∧ starts.get? (idx - 1) = some aStart := by
  rcases hinv with rfl | ⟨h1, v, hv, hvle⟩
  · rcases hstop with h | ⟨hlt, hgt⟩
    · exact absurd p.isLt (by omega)
    · have h0 : starts.getD 0 0 ≤ aStart := by
        rw [List.getD_eq_getElem starts 0 (by omega)]
        have := sorted_get_le_of_le hs (Nat.zero_le p.1) p.isLt
        rw [hp] at this
        simpa using this
      omega
  · have hlt1 : idx - 1 < starts.length := by
      rcases List.get?_eq_some.1 hv with ⟨h, _⟩
      exact h
    have hvget : starts.get ⟨idx - 1, hlt1⟩ = v := by
      rw [List.get?_eq_get hlt1] at hv
      exact Option.some.inj hv
    have hple : p.1 ≤ idx - 1 := by
      by_contra hgt
      push_neg at hgt
      rcases hstop with h | ⟨hlt, hgtv⟩
      · omega
      · have : starts.get ⟨idx, hlt⟩ ≤ starts.get p := sorted_get_le_of_le hs (by omega) p.isLt
        rw [hp] at this
        rw [List.getD_eq_getElem starts 0 hlt] at hgtv
        simp only [List.get_eq_getElem] at this
        omega
    have : starts.get p ≤ starts.get ⟨idx - 1, hlt1⟩ := sorted_get_le_of_le hs hple hlt1
    rw [hp, hvget] at this
    have hveq : v = aStart := le_antisymm hvle this
    rw [hveq] at hv
    exact ⟨h1, hv⟩

theorem snapStartAux_aligned (starts : List Nat) (aStart : Nat)
    (hs : starts.Sorted (fun a b => a ≤ b)) (p : Fin starts.length)
    (hp : starts.get p = aStart) :
    ∀ fuel idx : Nat, starts.length - idx ≤ fuel →
      (idx = 0 ∨ (1 ≤ idx ∧ ∃ v, starts.get? (idx - 1) = some v ∧ v ≤ aStart)) →
      1 ≤ snapStartAux starts aStart idx fuel ∧
      starts.get? (snapStartAux starts aStart idx fuel - 1) = some aStart := by
  intro fuel
  induction fuel with
  | zero =>
    intro idx hfuel hinv
    rw [snapStartAux_zero]
    exact snapStart_terminal starts aStart hs p hp idx (Or.inl (by omega)) hinv
  | succ fuel ih =>
    intro idx hfuel hinv
    by_cases hc : idx < starts.length ∧ starts.getD idx 0 ≤ aStart
    · rw [snapStartAux_succ, if_pos hc]
      refine ih (idx + 1) (by omega) (Or.inr ⟨by omega, starts.get ⟨idx, hc.1⟩, ?_, ?_⟩)
      · simp only [Nat.add_sub_cancel]
        exact List.get?_eq_get hc.1
      · rw [List.getD_eq_getElem starts 0 hc.1] at hc
        simpa using hc.2
    · rw [snapStartAux_succ, if_neg hc]
      push_neg at hc
      rcases Nat.lt_or_ge idx starts.length with hlt | hge
      · exact snapStart_terminal starts aStart hs p hp idx (Or.inr ⟨hlt, hc hlt⟩) hinv
      · exact snapStart_terminal starts aStart hs p hp idx (Or.inl hge) hinv

theorem snapEndAux_zero (ends : List Nat) (aEnd idx : Nat) :
    snapEndAux ends aEnd idx 0 = idx := by
  simp [snapEndAux]

theorem snapEndAux_succ (ends : List Nat) (aEnd idx fuel : Nat) :
    snapEndAux ends aEnd idx (fuel + 1) =
      if idx < ends.length - 1 ∧ ends.getD idx 0 < aEnd then
        snapEndAux ends aEnd (idx + 1) fuel
      else idx := by
  rw [snapEndAux]

theorem snapEnd_terminal (ends : List Nat) (aEnd : Nat)
    (hs : ends.Sorted (fun a b => a ≤ b)) (p : Fin ends.length)
    (hp : ends.get p = aEnd) (idx : Nat)
    (hstop : ends.length - 1 ≤ idx ∨ aEnd ≤ ends.getD idx 0)
    (hinv : ∃ w, ends.get? idx = some w ∧ w ≤ aEnd) :
    ends.get? idx = some aEnd := by
  obtain ⟨w, hw, hwle⟩ := hinv
  have hlt : idx < ends.length := by
    rcases List.get?_eq_some.1 hw with ⟨h, _⟩
    exact h
  have hwget : ends.get ⟨idx, hlt⟩ = w := by
    rw [List.get?_eq_get hlt] at hw
    exact Option.some.inj hw
  have haew : aEnd ≤ w := by
    rcases hstop with h | h
    · have hple : p.1 ≤ idx := by omega
      have := sorted_get_le_of_le hs hple hlt
      rw [hp, hwget] at this
      exact this
    · rw [List.getD_eq_getElem ends 0 hlt] at h
      simp only [List.get_eq_getElem] at hwget
      omega
  have : w = aEnd := le_antisymm hwle haew
  rw [this] at hw
  exact hw

theorem snapEndAux_aligned (ends : List Nat) (aEnd : Nat)
    (hs : ends.Sorted (fun a b => a ≤ b)) (p : Fin ends.length)
    (hp : ends.get p = aEnd) :
    ∀ fuel idx : Nat, ends.length - idx ≤ fuel →
      (∃ w, ends.get? idx = some w ∧ w ≤ aEnd) →
      ends.get? (snapEndAux ends aEnd idx fuel) = some aEnd := by
  intro fuel
  induction fuel with
  | zero =>
    intro idx hfuel hinv
    rw [snapEndAux_zero]
    exact snapEnd_terminal ends aEnd hs p hp idx (Or.inl (by omega)) hinv
  | succ fuel ih =>
    intro idx hfuel hinv
    by_cases hc : idx < ends.length - 1 ∧ ends.getD idx 0 < aEnd
    · rw [snapEndAux_succ, if_pos hc]
      obtain ⟨w, hw, hwle⟩ := hinv
      have hlt : idx < ends.length := by omega
      have hlt1 : idx + 1 < ends.length := by omega
      have hwget : ends.get ⟨idx, hlt⟩ = w := by
        rw [List.get?_eq_get hlt] at hw
        exact Option.some.inj hw
      have hwlt : w < aEnd := by
        rw [List.getD_eq_getElem ends 0 hlt] at hc
        simp only [List.get_eq_getElem] at hwget
        omega
      have hpgt : idx < p.1 := by
        by_contra hle
        push_neg at hle
        have := sorted_get_le_of_le hs hle hlt
        rw [hp, hwget] at this
        omega
      have hnext : ends.get ⟨idx + 1, hlt1⟩ ≤ aEnd := by
        have := sorted_get_le_of_le hs (by omega : idx + 1 ≤ p.1) p.isLt
        rw [hp] at this
        exact this
      exact ih (idx + 1) (by omega) ⟨ends.get ⟨idx + 1, hlt1⟩, List.get?_eq_get hlt1, hnext⟩
    · rw [snapEndAux_succ, if_neg hc]
      push_neg at hc
      rcases Nat.lt_or_ge idx (ends.length - 1) with hlt | hge
      · exact snapEnd_terminal ends aEnd hs p hp idx (Or.inr (hc hlt)) hinv
      · exact snapEnd_terminal ends aEnd hs p hp idx (Or.inl hge) hinv

/-- Claim C9 counterexample: with whole-token snapping enabled
(`subtoken_predictions=False`) on `"ab cd ef"` with word tokens
`[0,2), [3,5), [6,8)`, the prediction `"ab"` locates at `(0,2)` — both
boundaries token-aligned, as the third conjunct shows by running it alone —
yet after the earlier candidate `"ab cd"` advanced the persistent snapping
cursors, its end is snapped to `5`: the document yields `(0,5)` instead of
keeping `(0,2)`. -/
theorem claim_c9_counterexample :
    finetune_to_indico_doc (String.toList "ab cd ef")
        [String.toList "ab cd", String.toList "ab"] [.single "X", .single "Y"]
        [0, 3, 6] [2, 5, 8] "<PAD>" false =
      .ok [⟨0, 5, "X", String.toList "ab cd"⟩, ⟨0, 5, "Y", String.toList "ab cd"⟩] ∧
    ((0 : Nat) ∈ [0, 3, 6] ∧ (2 : Nat) ∈ [2, 5, 8]) ∧
    finetune_to_indico_doc (String.toList "ab cd ef")
        [String.toList "ab"] [.single "Y"] [0, 3, 6] [2, 5, 8] "<PAD>" false =
      .ok [⟨0, 2, "Y", String.toList "ab"⟩] := by
  exact ⟨by decide, by decide, by decide⟩

/-- Claim C9 (amended): with whole-token snapping enabled, a located
annotation whose start coincides with a word-token start and whose end
coincides with a word-token end keeps exactly those boundaries, *provided*
the persistent snapping cursors have not already advanced past them: the
token start preceding the start cursor is `≤` the annotation start, and the
token end at the end cursor is `≤` the annotation end (as holds when
predictions are processed in non-decreasing span order).  Without these
cursor conditions the boundaries can move (see the counterexample). -/
theorem claim_c9_snapping_identity_amended (starts ends : List Nat)
    (aStart aEnd sIdx eIdx : Nat)
    (hs : starts.Sorted (fun a b => a ≤ b)) (hmemS : aStart ∈ starts)
    (hinvS : sIdx = 0 ∨ (1 ≤ sIdx ∧ ∃ v, starts.get? (sIdx - 1) = some v ∧ v ≤ aStart))
    (he : ends.Sorted (fun a b => a ≤ b)) (hmemE : aEnd ∈ ends)
    (hinvE : ∃ w, ends.get? eIdx = some w ∧ w ≤ aEnd) :
    pyGetNat starts ((snapStartIdx starts aStart sIdx : Int) - 1) = some aStart ∧
    ends.get? (snapEndIdx ends aEnd eIdx) = some aEnd := by
  obtain ⟨p, hp⟩ := List.mem_iff_get.1 hmemS
  obtain ⟨q, hq⟩ := List.mem_iff_get.1 hmemE
  have h1 : 1 ≤ snapStartIdx starts aStart sIdx ∧
      starts.get? (snapStartIdx starts aStart sIdx - 1) = some aStart :=
    snapStartAux_aligned starts aStart hs p hp (starts.length - sIdx) sIdx le_rfl hinvS
  have h2 : ends.get? (snapEndIdx ends aEnd eIdx) = some aEnd :=
    snapEndAux_aligned ends aEnd he q hq (ends.length - eIdx) eIdx le_rfl hinvE
  refine ⟨?_, h2⟩
  obtain ⟨hge1, hget⟩ := h1
  unfold pyGetNat
  rw [if_pos (by omega : (0 : Int) ≤ (snapStartIdx starts aStart sIdx : Int) - 1)]
  have : ((snapStartIdx starts aStart sIdx : Int) - 1).toNat =
      snapStartIdx starts aStart sIdx - 1 := by omega
  rw [this]
  exact hget

/-- Witness for the amended C9: the token-aligned boundaries `(0, 2)` of the
counterexample are kept when the cursors start at `0`. -/
theorem claim_c9_witness :
    pyGetNat [0, 3, 6] ((snapStartIdx [0, 3, 6] 0 0 : Int) - 1) = some 0 ∧
    List.get? [2, 5, 8] (snapEndIdx [2, 5, 8] 2 0) = some 2 :=
  claim_c9_snapping_identity_amended [0, 3, 6] [2, 5, 8] 0 2 0 0
    (by decide) (by decide) (Or.inl rfl) (by decide) (by decide)
    ⟨2, rfl, by decide⟩

theorem overlap_intersect {c a : Ann} (hc : c.start < c.end_) (ha : a.start < a.end_)
    (h : overlap c a = true) :
    max c.start a.start < min c.end_ a.end_ := by
  unfold overlap at h
  simp only [decide_eq_true_eq] at h
  omega

theorem scanMerged_split {current a : Ann} {l : List Ann}
    (h : scanMerged current l = .split a) : a ∈ l ∧ overlap current a = true := by
  induction l with
  | nil => simp [scanMerged] at h
  | cons b rest ih =>
    simp only [scanMerged] at h
    by_cases h1 : current.end_ < b.start
    · rw [if_pos h1] at h
      cases h
    · rw [if_neg h1] at h
      by_cases h2 : overlap current b = true
      · simp only [h2, if_pos] at h
        injection h with h3
        subst h3
        exact ⟨List.mem_cons_self _ _, h2⟩
      · simp only [h2, if_neg, Bool.false_eq_true, if_false] at h
        obtain ⟨hm, ho⟩ := ih h
        exact ⟨List.mem_cons_of_mem b hm, ho⟩

theorem massList_append (l1 l2 : List Ann) :
    massList (l1 ++ l2) = massList l1 + massList l2 := by
  simp [massList]

theorem massList_cons (a : Ann) (l : List Ann) :
    massList (a :: l) = annMass a + massList l := by
  simp [massList]

theorem massList_erase {a : Ann} {l : List Ann} (h : a ∈ l) :
    massList l = annMass a + massList (l.erase a) := by
  have hperm : l.Perm (a :: l.erase a) := List.perm_cons_erase h
  unfold massList
  rw [(hperm.map annMass).sum_eq]
  simp [annMass]

theorem overlap_handler_length (c a : Ann) (text : List Char) :
    (overlap_handler c a text).length = 3 := rfl

theorem massList_overlap_handler {c a : Ann} (text : List Char)
    (hc : c.start < c.end_) (ha : a.start < a.end_) (h : overlap c a = true) :
    massList (overlap_handler c a text) + 1 ≤ annMass c + annMass a := by
  have hint := overlap_intersect hc ha h
  unfold overlap_handler
  by_cases hle : c.start ≤ a.start <;>
    simp only [hle, if_pos, if_neg, if_true, if_false, massList, annMass, List.map_cons,
      List.map_nil, List.sum_cons, List.sum_nil] <;>
    omega

theorem overlap_handler_wf_order {c a : Ann} (text : List Char)
    (hc : c.start < c.end_) (ha : a.start < a.end_) (h : overlap c a = true) :
    ∀ x ∈ overlap_handler c a text, x.start ≤ x.end_ := by
  have hint := overlap_intersect hc ha h
  unfold overlap_handler
  by_cases hle : c.start ≤ a.start <;>
    intro x hx <;>
    simp only [hle, if_pos, if_neg, if_true, if_false, List.mem_cons, List.not_mem_nil,
      or_false] at hx <;>
    rcases hx with rfl | rfl | rfl <;> simp <;> omega

theorem mergeLoop_isSome (text : List Char) :
    ∀ f q m, (∀ a ∈ q, a.start ≤ a.end_) → (∀ a ∈ m, a.start < a.end_) →
      mergeMeasure q m ≤ f → ∃ r, mergeLoop text f q m = some r := by
  intro f
  induction f with
  | zero =>
    intro q m _ _ hf
    unfold mergeMeasure at hf
    omega
  | succ f ih =>
    intro q m hq hm hf
    cases q with
    | nil => exact ⟨m, rfl⟩
    | cons current rest =>
      have hrest : ∀ a ∈ rest, a.start ≤ a.end_ :=
        fun a ha => hq a (List.mem_cons_of_mem current ha)
      have hcur : current.start ≤ current.end_ := hq current (List.mem_cons_self current rest)
      by_cases hdeg : current.start = current.end_
      · simp only [mergeLoop, if_pos hdeg]
        apply ih rest m hrest hm
        unfold mergeMeasure at hf ⊢
        rw [massList_cons] at hf
        simp only [List.length_cons] at hf
        omega
      · simp only [mergeLoop, if_neg hdeg]
        have hcurlt : current.start < current.end_ := lt_of_le_of_ne hcur hdeg
        cases hscan : scanMerged current (sort_by_start m) with
        | append =>
          show ∃ r, mergeLoop text f rest (m ++ [current]) = some r
          apply ih rest (m ++ [current])
          · exact hrest
          · intro a ha
            rcases List.mem_append.1 ha with h1 | h1
            · exact hm a h1
            · rcases List.mem_singleton.1 h1 with rfl
              exact hcurlt
          · unfold mergeMeasure at hf ⊢
            rw [massList_cons] at hf
            rw [massList_append]
            simp only [List.length_cons, massList, List.map_cons, List.map_nil,
              List.sum_cons, List.sum_nil] at hf ⊢
            omega
        | split a =>
          obtain ⟨hmem, hov⟩ := scanMerged_split hscan
          unfold sort_by_start at hmem
          rw [List.mem_insertionSort] at hmem
          have halt : a.start < a.end_ := hm a hmem
          show ∃ r, mergeLoop text f (overlap_handler current a text ++ rest) (m.erase a) = some r
          apply ih (overlap_handler current a text ++ rest) (m.erase a)
          · intro x hx
            rcases List.mem_append.1 hx with h1 | h1
            · exact overlap_handler_wf_order text hcurlt halt hov x h1
            · exact hrest x h1
          · intro x hx
            exact hm x (List.mem_of_mem_erase hx)
          · have hmass := massList_overlap_handler text hcurlt halt hov
            have herase := massList_erase hmem
            unfold mergeMeasure at hf ⊢
            rw [massList_cons] at hf
            rw [massList_append, List.length_append, overlap_handler_length]
            simp only [List.length_cons] at hf ⊢
            omega

theorem mergeMeasure_cons (current : Ann) (rest m : List Ann) :
    mergeMeasure (current :: rest) m =
      3 * annMass current + mergeMeasure rest m + 1 := by
  unfold mergeMeasure
  rw [massList_cons]
  simp only [List.length_cons]
  ring

theorem mergeMeasure_append_elem (rest m : List Ann) (current : Ann) :
    mergeMeasure rest (m ++ [current]) = 3 * annMass current + mergeMeasure rest m := by
  unfold mergeMeasure
  rw [massList_append]
  simp only [massList, List.map_cons, List.map_nil, List.sum_cons, List.sum_nil]
  ring

theorem mergeMeasure_split_lt {current a : Ann} {rest m : List Ann} (text : List Char)
    (hc : current.start < current.end_) (ha : a.start < a.end_)
    (hov : overlap current a = true) (hmem : a ∈ m) :
    mergeMeasure (overlap_handler current a text ++ rest) (m.erase a) + 1 ≤
      mergeMeasure (current :: rest) m := by
  have hmass := massList_overlap_handler text hc ha hov
  have herase := massList_erase hmem
  unfold mergeMeasure
  rw [massList_append, List.length_append, overlap_handler_length, massList_cons]
  simp only [List.length_cons]
  omega

theorem mergeLoop_fuel_irrel (text : List Char) :
    ∀ n f g q m, mergeMeasure q m ≤ n →
      (∀ a ∈ q, a.start ≤ a.end_) → (∀ a ∈ m, a.start < a.end_) →
      mergeMeasure q m ≤ f → mergeMeasure q m ≤ g →
      mergeLoop text f q m = mergeLoop text g q m := by
  intro n
  induction n using Nat.strong_induction_on with
  | _ n ih =>
    intro f g q m hn hq hm hf hg
    have h1 : 1 ≤ mergeMeasure q m := by unfold mergeMeasure; omega
    cases q with
    | nil =>
      cases f with
      | zero => omega
      | succ f =>
        cases g with
        | zero => omega
        | succ g => rfl
    | cons current rest =>
      cases f with
      | zero => omega
      | succ f =>
        cases g with
        | zero => omega
        | succ g =>
          have hrest : ∀ a ∈ rest, a.start ≤ a.end_ :=
            fun a ha => hq a (List.mem_cons_of_mem current ha)
          have hcur : current.start ≤ current.end_ := hq current (List.mem_cons_self current rest)
          have hcons := mergeMeasure_cons current rest m
          by_cases hdeg : current.start = current.end_
          · show mergeLoop text (f + 1) (current :: rest) m =
              mergeLoop text (g + 1) (current :: rest) m
            simp only [mergeLoop, if_pos hdeg]
            have hz : annMass current = 0 := by unfold annMass; omega
            exact ih (n - 1) (by omega) f g rest m (by omega) hrest hm (by omega) (by omega)
          · show mergeLoop text (f + 1) (current :: rest) m =
              mergeLoop text (g + 1) (current :: rest) m
            simp only [mergeLoop, if_neg hdeg]
            have hcurlt : current.start < current.end_ := lt_of_le_of_ne hcur hdeg
            cases hscan : scanMerged current (sort_by_start m) with
            | append =>
              have happ := mergeMeasure_append_elem rest m current
              exact ih (n - 1) (by omega) f g rest (m ++ [current])
                (by omega) hrest
                (by
                  intro a ha
                  rcases List.mem_append.1 ha with h1 | h1
                  · exact hm a h1
                  · rcases List.mem_singleton.1 h1 with rfl
                    exact hcurlt)
                (by omega) (by omega)
            | split a =>
              obtain ⟨hmem, hov⟩ := scanMerged_split hscan
              unfold sort_by_start at hmem
              rw [List.mem_insertionSort] at hmem
              have halt : a.start < a.end_ := hm a hmem
              have hsplit := @mergeMeasure_split_lt current a rest m text hcurlt halt hov hmem
              exact ih (n - 1) (by omega) f g (overlap_handler current a text ++ rest) (m.erase a)
                (by omega)
                (by
                  intro x hx
                  rcases List.mem_append.1 hx with h1 | h1
                  · exact overlap_handler_wf_order text hcurlt halt hov x h1
                  · exact hrest x h1)
                (fun x hx => hm x (List.mem_of_mem_erase hx))
                (by omega) (by omega)

theorem mergeLoop_drop_deg (text : List Char) (d : Ann) (hd : d.start = d.end_) :
    ∀ n q1 q2 m f g, mergeMeasure (q1 ++ d :: q2) m ≤ n →
      (∀ a ∈ q1 ++ q2, a.start ≤ a.end_) → (∀ a ∈ m, a.start < a.end_) →
      mergeMeasure (q1 ++ d :: q2) m ≤ f → mergeMeasure (q1 ++ q2) m ≤ g →
      mergeLoop text f (q1 ++ d :: q2) m = mergeLoop text g (q1 ++ q2) m := by
  have hdz : annMass d = 0 := by unfold annMass; omega
  intro n
  induction n using Nat.strong_induction_on with
  | _ n ih =>
    intro q1 q2 m f g hn hq hm hf hg
    have h1 : 1 ≤ mergeMeasure (q1 ++ d :: q2) m := by unfold mergeMeasure; omega
    cases q1 with
    | nil =>
      cases f with
      | zero => omega
      | succ f =>
        show mergeLoop text (f + 1) (d :: q2) m = mergeLoop text g q2 m
        simp only [mergeLoop, if_pos hd]
        have hcons := mergeMeasure_cons d q2 m
        simp only [List.nil_append] at hn hf hcons
        exact mergeLoop_fuel_irrel text (mergeMeasure q2 m) f g q2 m le_rfl
          (fun a ha => hq a ha) hm (by omega) (by simpa using hg)
    | cons current t =>
      have hqt : ∀ a ∈ t ++ q2, a.start ≤ a.end_ :=
        fun a ha => hq a (List.mem_cons_of_mem current ha)
      have hcur : current.start ≤ current.end_ :=
        hq current (List.mem_cons_self current (t ++ q2))
      have hconsL := mergeMeasure_cons current (t ++ d :: q2) m
      have hconsR := mergeMeasure_cons current (t ++ q2) m
      cases f with
      | zero =>
        rw [List.cons_append] at hn hf
        rw [hconsL] at hf
        omega
      | succ f =>
        cases g with
        | zero =>
          rw [List.cons_append] at hg
          rw [hconsR] at hg
          omega
        | succ g =>
          rw [List.cons_append] at hn hf ⊢
          rw [List.cons_append] at hg ⊢
          rw [hconsL] at hn hf
          rw [hconsR] at hg
          by_cases hdeg : current.start = current.end_
          · simp only [mergeLoop, if_pos hdeg]
            have hz : annMass current = 0 := by unfold annMass; omega
            exact ih (n - 1) (by omega) t q2 m f g (by omega) hqt hm (by omega) (by omega)
          · simp only [mergeLoop, if_neg hdeg]
            have hcurlt : current.start < current.end_ := lt_of_le_of_ne hcur hdeg
            cases hscan : scanMerged current (sort_by_start m) with
            | append =>
              have happL := mergeMeasure_append_elem (t ++ d :: q2) m current
              have happR := mergeMeasure_append_elem (t ++ q2) m current
              exact ih (n - 1) (by omega) t q2 (m ++ [current]) f g
                (by omega) hqt
                (by
                  intro a ha
                  rcases List.mem_append.1 ha with h2 | h2
                  · exact hm a h2
                  · rcases List.mem_singleton.1 h2 with rfl
                    exact hcurlt)
                (by omega) (by omega)
            | split a =>
              obtain ⟨hmem, hov⟩ := scanMerged_split hscan
              unfold sort_by_start at hmem
              rw [List.mem_insertionSort] at hmem
              have halt : a.start < a.end_ := hm a hmem
              have hsplitL := @mergeMeasure_split_lt current a (t ++ d :: q2) m text
                hcurlt halt hov hmem
              have hsplitR := @mergeMeasure_split_lt current a (t ++ q2) m text
                hcurlt halt hov hmem
              show mergeLoop text f (overlap_handler current a text ++ (t ++ d :: q2)) (m.erase a) =
                mergeLoop text g (overlap_handler current a text ++ (t ++ q2)) (m.erase a)
              rw [show overlap_handler current a text ++ (t ++ d :: q2) =
                    (overlap_handler current a text ++ t) ++ d :: q2 from
                  (List.append_assoc _ _ _).symm,
                show overlap_handler current a text ++ (t ++ q2) =
                    (overlap_handler current a text ++ t) ++ q2 from
                  (List.append_assoc _ _ _).symm]
              rw [hconsL] at hsplitL
              rw [hconsR] at hsplitR
              have hqs : ∀ x ∈ (overlap_handler current a text ++ t) ++ q2, x.start ≤ x.end_ := by
                intro x hx
                rcases List.mem_append.1 hx with h2 | h2
                · rcases List.mem_append.1 h2 with h3 | h3
                  · exact overlap_handler_wf_order text hcurlt halt hov x h3
                  · exact hqt x (List.mem_append.2 (Or.inl h3))
                · exact hqt x (List.mem_append.2 (Or.inr h2))
              have hms : ∀ x ∈ m.erase a, x.start < x.end_ :=
                fun x hx => hm x (List.mem_of_mem_erase hx)
              have hassocL : (overlap_handler current a text ++ t) ++ d :: q2 =
                  overlap_handler current a text ++ (t ++ d :: q2) := by
                rw [List.append_assoc]
              have hassocR : (overlap_handler current a text ++ t) ++ q2 =
                  overlap_handler current a text ++ (t ++ q2) := by
                rw [List.append_assoc]
              apply ih (n - 1) (by omega) (overlap_handler current a text ++ t) q2 (m.erase a) f g
              · rw [hassocL]; omega
              · exact hqs
              · exact hms
              · rw [hassocL]; omega
              · rw [hassocR]; omega

theorem orderedInsert_decomp (x : RawAnn) (l : List RawAnn) :
    ∃ p1 p2, List.orderedInsert startLeRaw x l = p1 ++ x :: p2 ∧ l = p1 ++ p2 := by
  induction l with
  | nil => exact ⟨[], [], rfl, rfl⟩
  | cons b t ih =>
    by_cases h : startLeRaw x b
    · exact ⟨[], b :: t, by simp [List.orderedInsert, h], rfl⟩
    · obtain ⟨p1, p2, h1, h2⟩ := ih
      exact ⟨b :: p1, p2, by simp [List.orderedInsert, h, h1], by simp [h2]⟩

theorem orderedInsert_decomp_pair (x d : RawAnn) :
    ∀ q1 q2 : List RawAnn, List.Sorted startLeRaw (q1 ++ d :: q2) →
      ∃ r1 r2, List.orderedInsert startLeRaw x (q1 ++ d :: q2) = r1 ++ d :: r2 ∧
        List.orderedInsert startLeRaw x (q1 ++ q2) = r1 ++ r2 := by
  intro q1
  induction q1 with
  | nil =>
    intro q2 hsort
    simp only [List.nil_append] at hsort ⊢
    by_cases h : startLeRaw x d
    · refine ⟨[x], q2, by simp [List.orderedInsert, h], ?_⟩
      cases q2 with
      | nil => simp [List.orderedInsert]
      | cons c t =>
        have hdc : startLeRaw d c := (List.sorted_cons.1 hsort).1 c (List.mem_cons_self c t)
        have hxc : startLeRaw x c := Nat.le_trans h hdc
        simp [List.orderedInsert, hxc]
    · exact ⟨[], List.orderedInsert startLeRaw x q2, by simp [List.orderedInsert, h], rfl⟩
  | cons b t ih =>
    intro q2 hsort
    simp only [List.cons_append] at hsort ⊢
    have hsort2 : List.Sorted startLeRaw (t ++ d :: q2) := (List.sorted_cons.1 hsort).2
    by_cases h : startLeRaw x b
    · exact ⟨x :: b :: t, q2, by simp [List.orderedInsert, h], by simp [List.orderedInsert, h]⟩
    · obtain ⟨r1, r2, h1, h2⟩ := ih q2 hsort2
      exact ⟨b :: r1, r2, by simp [List.orderedInsert, h, h1],
        by simp [List.orderedInsert, h, h2]⟩

theorem sort_raw_decomp (d : RawAnn) :
    ∀ l1 l2 : List RawAnn,
      ∃ p1 p2, sort_by_start_raw (l1 ++ d :: l2) = p1 ++ d :: p2 ∧
        sort_by_start_raw (l1 ++ l2) = p1 ++ p2 := by
  intro l1
  induction l1 with
  | nil =>
    intro l2
    obtain ⟨p1, p2, h1, h2⟩ := orderedInsert_decomp d (sort_by_start_raw l2)
    refine ⟨p1, p2, ?_, ?_⟩
    · simp only [List.nil_append, sort_by_start_raw, List.insertionSort]
      exact h1
    · simpa only [List.nil_append] using h2
  | cons x t ih =>
    intro l2
    obtain ⟨p1, p2, h1, h2⟩ := ih l2
    have hsorted : List.Sorted startLeRaw (p1 ++ d :: p2) := by
      rw [← h1]
      exact List.sorted_insertionSort startLeRaw (t ++ d :: l2)
    obtain ⟨r1, r2, g1, g2⟩ := orderedInsert_decomp_pair x d p1 p2 hsorted
    refine ⟨r1, r2, ?_, ?_⟩
    · show sort_by_start_raw (x :: (t ++ d :: l2)) = r1 ++ d :: r2
      simp only [sort_by_start_raw, List.insertionSort] at h1 ⊢
      rw [h1]
      exact g1
    · show sort_by_start_raw (x :: (t ++ l2)) = r1 ++ r2
      simp only [sort_by_start_raw, List.insertionSort] at h2 ⊢
      rw [h2]
      exact g2

theorem sorted_map_wrap (l : List RawAnn) :
    List.Sorted startLe ((sort_by_start_raw l).map wrapAnn) := by
  have h := List.sorted_insertionSort startLeRaw l
  unfold sort_by_start_raw
  exact List.Pairwise.map wrapAnn (fun a b hab => hab) h

theorem initQueue_eq (l : List RawAnn) :
    initQueue l = (sort_by_start_raw l).map wrapAnn := by
  unfold initQueue sort_by_start
  exact List.Sorted.insertionSort_eq (sorted_map_wrap l)


/-- Claim C4: for every finite input span list (satisfying the data model's
`start <= end`), the worklist loop of the interval merge engine terminates:
with the fuel `mergeMeasure` — each split strictly reduces the total
span-length mass, and every other iteration shortens the queue — the loop
returns a result.  (`processDocument` runs `mergeLoop` with exactly this
fuel, so the `outOfFuel` branch is unreachable.) -/
theorem claim_c4_merge_loop_terminates (text : List Char) (labelSeq : List RawAnn)
    (hwf : ∀ a ∈ labelSeq, a.start ≤ a.end_) :
    ∃ merged, mergeLoop text (mergeMeasure (initQueue labelSeq) [])
      (initQueue labelSeq) [] = some merged := by
  apply mergeLoop_isSome
  · intro a ha
    obtain ⟨r, hr, rfl⟩ := mem_initQueue.1 ha
    exact hwf r hr
  · intro a ha
    cases ha
  · exact le_rfl

/-- Witness for C4 with two overlapping concrete spans. -/
theorem claim_c4_witness :
    ∃ merged, mergeLoop (String.toList "abcdefghijklmno")
      (mergeMeasure (initQueue [⟨0, 10, "X", []⟩, ⟨5, 15, "Y", []⟩]) [])
      (initQueue [⟨0, 10, "X", []⟩, ⟨5, 15, "Y", []⟩]) [] = some merged :=
  claim_c4_merge_loop_terminates (String.toList "abcdefghijklmno")
    [⟨0, 10, "X", []⟩, ⟨5, 15, "Y", []⟩] (by decide)

/-- Claim C8: an input span with `start == end` is dropped silently by
`indico_to_finetune_sequence` — inserting it anywhere in the input changes
nothing: the result (output or raised error) is identical to the run without
it, regardless of its label.  (Input spans obey the data model's
`start <= end`.) -/
theorem claim_c8_degenerate_spans_dropped (text : List Char) (l1 l2 : List RawAnn)
    (d : RawAnn) (multiLabel : Bool) (noneValue : String)
    (hdeg : d.start = d.end_) (hwf : ∀ a ∈ l1 ++ l2, a.start ≤ a.end_) :
    processDocument text (l1 ++ d :: l2) multiLabel noneValue =
      processDocument text (l1 ++ l2) multiLabel noneValue := by
  obtain ⟨p1, p2, h1, h2⟩ := sort_raw_decomp d l1 l2
  have hQ1 : initQueue (l1 ++ d :: l2) =
      (p1.map wrapAnn) ++ wrapAnn d :: (p2.map wrapAnn) := by
    rw [initQueue_eq, h1, List.map_append, List.map_cons]
  have hQ2 : initQueue (l1 ++ l2) = (p1.map wrapAnn) ++ (p2.map wrapAnn) := by
    rw [initQueue_eq, h2, List.map_append]
  have hqwf : ∀ a ∈ (p1.map wrapAnn) ++ (p2.map wrapAnn), a.start ≤ a.end_ := by
    intro a ha
    rw [← List.map_append] at ha
    obtain ⟨r, hr, rfl⟩ := List.mem_map.1 ha
    rw [← h2] at hr
    unfold sort_by_start_raw at hr
    rw [List.mem_insertionSort] at hr
    exact hwf r hr
  have hmerge : mergeLoop text (mergeMeasure (initQueue (l1 ++ d :: l2)) [])
        (initQueue (l1 ++ d :: l2)) [] =
      mergeLoop text (mergeMeasure (initQueue (l1 ++ l2)) [])
        (initQueue (l1 ++ l2)) [] := by
    rw [hQ1, hQ2]
    exact mergeLoop_drop_deg text (wrapAnn d) hdeg
      (mergeMeasure ((p1.map wrapAnn) ++ wrapAnn d :: (p2.map wrapAnn)) [])
      (p1.map wrapAnn) (p2.map wrapAnn) [] _ _ le_rfl hqwf (fun a ha => absurd ha (List.not_mem_nil a))
      le_rfl le_rfl
  simp only [processDocument, hmerge]

/-- Witness for C8: a degenerate span `[1,1)` with label `"Z"` leaves the
document's conversion unchanged. -/
theorem claim_c8_witness :
    processDocument (String.toList "ab") ([⟨0, 1, "X", ['a']⟩] ++ ⟨1, 1, "Z", []⟩ :: [])
        true "<PAD>" =
      processDocument (String.toList "ab") ([⟨0, 1, "X", ['a']⟩] ++ []) true "<PAD>" :=
  claim_c8_degenerate_spans_dropped (String.toList "ab") [⟨0, 1, "X", ['a']⟩] []
    ⟨1, 1, "Z", []⟩ true "<PAD>" (by decide) (by decide)


theorem candGet_candAppend_self (m : List (Nat × List Cand)) (k : Nat) (c : Cand) :
    candGet (candAppend m k c) k = some ((candGet m k).getD [] ++ [c]) := by
  induction m with
  | nil => simp [candAppend, candGet, List.find?]
  | cons p rest ih =>
    obtain ⟨k1, v⟩ := p
    by_cases h : k1 = k
    · subst h
      simp [candAppend, candGet, List.find?]
    · have hbeq : (k1 == k) = false := beq_eq_false_iff_ne.2 h
      simp only [candAppend, if_neg h, candGet, List.find?, hbeq] at ih ⊢
      exact ih

theorem candGet_candAppend_other (m : List (Nat × List Cand)) (k k1 : Nat) (c : Cand)
    (h : k1 ≠ k) : candGet (candAppend m k c) k1 = candGet m k1 := by
  induction m with
  | nil =>
    have hbeq : (k == k1) = false := beq_eq_false_iff_ne.2 (Ne.symm h)
    simp [candAppend, candGet, List.find?, hbeq]
  | cons p rest ih =>
    obtain ⟨k2, v⟩ := p
    by_cases h2 : k2 = k
    · subst h2
      have hbeq : (k2 == k1) = false := by
        apply beq_eq_false_iff_ne.2
        intro hx
        exact h hx.symm
      simp [candAppend, candGet, List.find?, hbeq]
    · by_cases h3 : k2 = k1
      · subst h3
        simp [candAppend, if_neg h2, candGet, List.find?]
      · have hbeq : (k2 == k1) = false := beq_eq_false_iff_ne.2 h3
        simp only [candAppend, if_neg h2, candGet, List.find?, hbeq] at ih ⊢
        exact ih

theorem collectCandidates_spec (noneValue : String) (lookup : List (Nat × Nat)) :
    ∀ (tups : List AssocTup) (m0 m : List (Nat × List Cand)),
      collectCandidates noneValue lookup tups m0 = .ok m →
      ∀ k,
        (candGet m k).getD [] =
          (candGet m0 k).getD [] ++ specValidCandidates noneValue lookup tups k ∧
        (candGet m k = none ↔
          (candGet m0 k = none ∧ specValidCandidates noneValue lookup tups k = [])) := by
  intro tups
  induction tups with
  | nil =>
    intro m0 m hok k
    simp only [collectCandidates] at hok
    injection hok with hok
    subst hok
    simp [specValidCandidates]
  | cons t rest ih =>
    intro m0 m hok k
    simp only [collectCandidates] at hok
    by_cases hskip : t.candLabel = noneValue ∨ dictGet lookup t.candIdx = none
    · rw [if_pos hskip] at hok
      have hspec : specValidCandidates noneValue lookup (t :: rest) k =
          specValidCandidates noneValue lookup rest k := by
        unfold specValidCandidates
        rw [List.filterMap_cons]
        rcases hskip with h1 | h1
        · rw [if_pos h1]
        · by_cases h2 : t.candLabel = noneValue
          · rw [if_pos h2]
          · rw [if_neg h2, h1]
      rw [hspec]
      exact ih m0 m hok k
    · rw [if_neg hskip] at hok
      push_neg at hskip
      obtain ⟨hlab, hcand⟩ := hskip
      cases hcandGet : dictGet lookup t.candIdx with
      | none => exact absurd hcandGet hcand
      | some j =>
        cases hbpe : dictGet lookup t.bpeIdx with
        | none =>
          rw [hbpe, hcandGet] at hok
          cases hok
        | some k2 =>
          rw [hbpe, hcandGet] at hok
          have hspec : specValidCandidates noneValue lookup (t :: rest) k =
              (if k2 = k then [(⟨j, t.candLabel, t.prob⟩ : Cand)] else []) ++
                specValidCandidates noneValue lookup rest k := by
            unfold specValidCandidates
            rw [List.filterMap_cons]
            by_cases hk : k2 = k <;> simp [hlab, hcandGet, hbpe, hk]
          rw [hspec]
          have ihm := ih (candAppend m0 k2 ⟨j, t.candLabel, t.prob⟩) m hok k
          by_cases hk : k2 = k
          · subst hk
            rw [if_pos rfl]
            obtain ⟨ih1, ih2⟩ := ihm
            rw [candGet_candAppend_self] at ih1 ih2
            constructor
            · rw [ih1]
              simp
            · rw [ih2]
              simp
          · rw [if_neg hk]
            obtain ⟨ih1, ih2⟩ := ihm
            rw [candGet_candAppend_other m0 k2 k _ (fun h => hk h.symm)] at ih1 ih2
            exact ⟨by rw [ih1]; simp, ih2⟩

theorem pickMax_find (k : Nat) :
    ∀ m : List (Nat × List Cand), (∀ p ∈ m, p.2 ≠ []) →
      (pickMax m).find? (fun p => p.1 == k) =
        ((m.find? (fun p => p.1 == k)).bind fun p =>
          match p.2 with
          | [] => none
          | c :: cs => some (p.1, firstMax c cs)) := by
  intro m
  induction m with
  | nil => intro _; simp [pickMax, List.find?]
  | cons p rest ih =>
    intro hne
    obtain ⟨k1, v⟩ := p
    cases v with
    | nil => exact absurd rfl (hne (k1, []) (List.mem_cons_self _ _))
    | cons c cs =>
      by_cases h : k1 = k
      · subst h
        simp [pickMax, List.filterMap_cons, List.find?]
      · have hbeq : (k1 == k) = false := beq_eq_false_iff_ne.2 h
        have ihr := ih (fun q hq => hne q (List.mem_cons_of_mem _ hq))
        simp only [pickMax, List.filterMap_cons, List.find?, hbeq] at ihr ⊢
        exact ihr

theorem firstMax_spec :
    ∀ (cs : List Cand) (c : Cand),
      firstMax c cs ∈ c :: cs ∧
      (∀ x ∈ c :: cs, x.prob ≤ (firstMax c cs).prob) ∧
      (c :: cs).find? (fun x => decide ((firstMax c cs).prob ≤ x.prob)) =
        some (firstMax c cs) := by
  intro cs
  induction cs with
  | nil =>
    intro c
    refine ⟨List.mem_cons_self _ _, ?_, ?_⟩
    · intro x hx
      rcases List.mem_cons.1 hx with rfl | hx
      · simp [firstMax]
      · cases hx
    · simp [firstMax, List.find?]
  | cons x rest ih =>
    intro c
    have hfm : firstMax c (x :: rest) = firstMax (if c.prob < x.prob then x else c) rest := by
      simp [firstMax]
    by_cases h : c.prob < x.prob
    · rw [if_pos h] at hfm
      obtain ⟨ihmem, ihmax, ihfind⟩ := ih x
      rw [hfm]
      refine ⟨List.mem_cons_of_mem c ihmem, ?_, ?_⟩
      · intro y hy
        rcases List.mem_cons.1 hy with rfl | hy
        · exact le_of_lt (lt_of_lt_of_le h (ihmax x (List.mem_cons_self _ _)))
        · exact ihmax y hy
      · have hx : (firstMax x rest).prob ≤ c.prob ↔ False := by
          simp only [iff_false, not_le]
          exact lt_of_lt_of_le h (ihmax x (List.mem_cons_self _ _))
        rw [List.find?_cons]
        rw [decide_eq_false (by simpa using hx.1)]  -- hmm
        exact ihfind
    · rw [if_neg h] at hfm
      push_neg at h
      obtain ⟨ihmem, ihmax, ihfind⟩ := ih c
      rw [hfm]
      have hmemfull : firstMax c rest ∈ c :: x :: rest := by
        rcases List.mem_cons.1 ihmem with h1 | h1
        · rw [h1]; exact List.mem_cons_self _ _
        · exact List.mem_cons_of_mem c (List.mem_cons_of_mem x h1)
      refine ⟨hmemfull, ?_, ?_⟩
      · intro y hy
        rcases List.mem_cons.1 hy with rfl | hy
        · exact ihmax y (List.mem_cons_self _ _)
        · rcases List.mem_cons.1 hy with rfl | hy2
          · exact le_trans h (ihmax c (List.mem_cons_self _ _))
          · exact ihmax y (List.mem_cons_of_mem c hy2)
      · by_cases hq : (firstMax c rest).prob ≤ c.prob
        · have hceq : firstMax c rest = c := by
            rw [List.find?_cons, decide_eq_true hq] at ihfind
            exact (Option.some.inj ihfind).symm
          rw [List.find?_cons, decide_eq_true hq]
          rw [hceq]
        · rw [List.find?_cons, decide_eq_false hq]
          rw [List.find?_cons] at ihfind
          rw [decide_eq_false hq] at ihfind
          have hxfail : ¬ (firstMax c rest).prob ≤ x.prob := by
            push_neg at hq
            intro hcontra
            exact absurd (le_trans hcontra h) (not_le.2 hq)
          rw [List.find?_cons, decide_eq_false hxfail]
          exact ihfind

theorem candAppend_ne (m : List (Nat × List Cand)) (k : Nat) (c : Cand)
    (h : ∀ p ∈ m, p.2 ≠ []) : ∀ p ∈ candAppend m k c, p.2 ≠ [] := by
  induction m with
  | nil =>
    intro p hp
    rcases List.mem_singleton.1 hp with rfl
    simp
  | cons q rest ih =>
    obtain ⟨k1, v⟩ := q
    intro p hp
    by_cases hk : k1 = k
    · subst hk
      simp only [candAppend, if_pos rfl] at hp
      rcases List.mem_cons.1 hp with rfl | hp2
      · simp
      · exact h p (List.mem_cons_of_mem _ hp2)
    · simp only [candAppend, if_neg hk] at hp
      rcases List.mem_cons.1 hp with rfl | hp2
      · exact h (k1, v) (List.mem_cons_self _ _)
      · exact ih (fun q hq => h q (List.mem_cons_of_mem _ hq)) p hp2

theorem collectCandidates_ne (noneValue : String) (lookup : List (Nat × Nat)) :
    ∀ (tups : List AssocTup) (m0 m : List (Nat × List Cand)),
      collectCandidates noneValue lookup tups m0 = .ok m →
      (∀ p ∈ m0, p.2 ≠ []) → ∀ p ∈ m, p.2 ≠ [] := by
  intro tups
  induction tups with
  | nil =>
    intro m0 m hok h0
    simp only [collectCandidates] at hok
    injection hok with hok
    subst hok
    exact h0
  | cons t rest ih =>
    intro m0 m hok h0
    simp only [collectCandidates] at hok
    by_cases hskip : t.candLabel = noneValue ∨ dictGet lookup t.candIdx = none
    · rw [if_pos hskip] at hok
      exact ih m0 m hok h0
    · rw [if_neg hskip] at hok
      cases hcandGet : dictGet lookup t.candIdx with
      | none => exact absurd (Or.inr hcandGet) hskip
      | some j =>
        cases hbpe : dictGet lookup t.bpeIdx with
        | none =>
          rw [hbpe, hcandGet] at hok
          cases hok
        | some k2 =>
          rw [hbpe, hcandGet] at hok
          exact ih _ m hok (candAppend_ne m0 k2 _ h0)

/-- Claim C7: for every occurrence index, the per-document candidate
collection of `assign_associations` selects, among that occurrence's valid
candidates (those whose candidate label is not the none-value and whose
target index maps to a known active occurrence, taken in encounter order),
the candidate of maximum probability, ties broken in favor of the first
encountered; an occurrence with no valid candidate gets no entry at all.
In particular, among three candidates for one occurrence with probabilities
0.2, 0.9 and 0.5, the 0.9 candidate ("rel2") is selected. -/
theorem claim_c7_association_selection :
    (∀ (noneValue : String) (doc_label : List String)
       (doc_association : List (List AssocTup)) (m : List (Nat × List Cand)),
      collectCandidates noneValue
          (buildLookup noneValue (doc_label.zip doc_association) 0 [])
          doc_association.flatten [] = .ok m →
      ∀ k : Nat,
        (specValidCandidates noneValue
            (buildLookup noneValue (doc_label.zip doc_association) 0 [])
            doc_association.flatten k = [] →
          (pickMax m).find? (fun p => p.1 == k) = none) ∧
        (∀ c cs, specValidCandidates noneValue
            (buildLookup noneValue (doc_label.zip doc_association) 0 [])
            doc_association.flatten k = c :: cs →
          ∃ best, ((pickMax m).find? (fun p => p.1 == k)).map Prod.snd = some best ∧
            best ∈ c :: cs ∧ (∀ x ∈ c :: cs, x.prob ≤ best.prob) ∧
            (c :: cs).find? (fun x => decide (best.prob ≤ x.prob)) = some best)) ∧
    assign_associations [["A", "B"]]
      [[[⟨0, 1, "rel", mkRat 2 10⟩, ⟨0, 1, "rel2", mkRat 9 10⟩, ⟨0, 1, "rel3", mkRat 5 10⟩],
        [⟨1, 0, "x", mkRat 1 10⟩]]] "<PAD>" =
    .ok [[(0, ⟨1, "rel2", mkRat 9 10⟩), (1, ⟨0, "x", mkRat 1 10⟩)]] := by
  refine ⟨?_, by decide⟩
  intro noneValue doc_label doc_association m hok k
  obtain ⟨hgetd, hnone⟩ := collectCandidates_spec noneValue
    (buildLookup noneValue (doc_label.zip doc_association) 0 [])
    doc_association.flatten [] m hok k
  have hne : ∀ p ∈ m, p.2 ≠ [] := collectCandidates_ne noneValue
    (buildLookup noneValue (doc_label.zip doc_association) 0 [])
    doc_association.flatten [] m hok (by intro p hp; cases hp)
  have hempty0 : candGet ([] : List (Nat × List Cand)) k = none := rfl
  rw [hempty0] at hgetd hnone
  simp only [Option.getD_none, List.nil_append] at hgetd
  constructor
  · intro hval
    have hcn : candGet m k = none := hnone.2 ⟨rfl, hval⟩
    have hfind : m.find? (fun p => p.1 == k) = none := by
      unfold candGet at hcn
      cases hf : m.find? (fun p => p.1 == k) with
      | none => rfl
      | some q => rw [hf] at hcn; cases hcn
    rw [pickMax_find k m hne, hfind]
    rfl
  · intro c cs hcs
    rw [hcs] at hgetd
    have hsome : candGet m k = some (c :: cs) := by
      cases hg : candGet m k with
      | none =>
        have := (hnone.1 hg).2
        rw [hcs] at this
        cases this
      | some v =>
        rw [hg] at hgetd
        simp only [Option.getD_some] at hgetd
        rw [hgetd]
    obtain ⟨pair, hpair, hsnd⟩ : ∃ pair, m.find? (fun p => p.1 == k) = some pair ∧
        pair.2 = c :: cs := by
      unfold candGet at hsome
      cases hf : m.find? (fun p => p.1 == k) with
      | none => rw [hf] at hsome; cases hsome
      | some q =>
        rw [hf] at hsome
        exact ⟨q, rfl, Option.some.inj hsome⟩
    refine ⟨firstMax c cs, ?_, (firstMax_spec cs c).1, (firstMax_spec cs c).2.1,
      (firstMax_spec cs c).2.2⟩
    rw [pickMax_find k m hne, hpair]
    obtain ⟨k1, v⟩ := pair
    simp only at hsnd
    subst hsnd
    rfl


/-- Witness for C7 at the 0.2 / 0.9 / 0.5 example: the selected candidate is
the 0.9 one. -/
theorem claim_c7_witness :
    ∃ best : Cand,
      ((pickMax [(0, [⟨1, "rel", mkRat 2 10⟩, ⟨1, "rel2", mkRat 9 10⟩, ⟨1, "rel3", mkRat 5 10⟩]),
                 (1, [⟨0, "x", mkRat 1 10⟩])]).find? (fun p => p.1 == 0)).map Prod.snd =
        some best ∧
      best ∈ [(⟨1, "rel", mkRat 2 10⟩ : Cand), ⟨1, "rel2", mkRat 9 10⟩, ⟨1, "rel3", mkRat 5 10⟩] ∧
      (∀ x ∈ [(⟨1, "rel", mkRat 2 10⟩ : Cand), ⟨1, "rel2", mkRat 9 10⟩, ⟨1, "rel3", mkRat 5 10⟩],
        x.prob ≤ best.prob) ∧
      ([(⟨1, "rel", mkRat 2 10⟩ : Cand), ⟨1, "rel2", mkRat 9 10⟩,
        ⟨1, "rel3", mkRat 5 10⟩].find? (fun x => decide (best.prob ≤ x.prob))) = some best :=
  (claim_c7_association_selection.1 "<PAD>" ["A", "B"]
    [[⟨0, 1, "rel", mkRat 2 10⟩, ⟨0, 1, "rel2", mkRat 9 10⟩, ⟨0, 1, "rel3", mkRat 5 10⟩],
     [⟨1, 0, "x", mkRat 1 10⟩]]
    [(0, [⟨1, "rel", mkRat 2 10⟩, ⟨1, "rel2", mkRat 9 10⟩, ⟨1, "rel3", mkRat 5 10⟩]),
     (1, [⟨0, "x", mkRat 1 10⟩])]
    (by decide) 0).2 ⟨1, "rel", mkRat 2 10⟩ [⟨1, "rel2", mkRat 9 10⟩, ⟨1, "rel3", mkRat 5 10⟩]
    (by decide)

theorem DisjAnn_symm {a b : Ann} (h : DisjAnn a b) : DisjAnn b a := h.symm

theorem overlap_false_disj {c a : Ann} (_hc : c.start < c.end_) (_ha : a.start < a.end_)
    (h : overlap c a = false) : DisjAnn c a := by
  unfold overlap at h
  unfold DisjAnn
  simp only [decide_eq_false_iff_not, not_or, not_and, not_lt, not_le] at h
  omega

theorem scanMerged_append_disj {current : Ann} :
    ∀ {l : List Ann}, List.Sorted startLe l → (∀ a ∈ l, a.start < a.end_) →
      (current.start < current.end_) →
      scanMerged current l = .append → ∀ a ∈ l, DisjAnn current a := by
  intro l
  induction l with
  | nil => intro _ _ _ _ a ha; cases ha
  | cons b rest ih =>
    intro hsort hnd hc h a ha
    simp only [scanMerged] at h
    by_cases h1 : current.end_ < b.start
    · rcases List.mem_cons.1 ha with rfl | ha2
      · exact Or.inl (le_of_lt h1)
      · have : b.start ≤ a.start := (List.sorted_cons.1 hsort).1 a ha2
        exact Or.inl (by omega)
    · rw [if_neg h1] at h
      by_cases h2 : overlap current b = true
      · simp only [h2, if_pos] at h
        cases h
      · simp only [h2, if_neg, Bool.false_eq_true, if_false] at h
        rcases List.mem_cons.1 ha with rfl | ha2
        · exact overlap_false_disj hc (hnd a (List.mem_cons_self a rest))
            (Bool.eq_false_iff.2 h2)
        · exact ih (List.sorted_cons.1 hsort).2
            (fun x hx => hnd x (List.mem_cons_of_mem b hx)) hc h a ha2

theorem overlap_handler_wf {c a : Ann} (text : List Char)
    (hcw : wfAnn text c) (haw : wfAnn text a)
    (hc : c.start < c.end_) (ha : a.start < a.end_) (hov : overlap c a = true) :
    ∀ x ∈ overlap_handler c a text, wfAnn text x := by
  have hint := overlap_intersect hc ha hov
  obtain ⟨hc1, hc2, _⟩ := hcw
  obtain ⟨ha1, ha2, _⟩ := haw
  unfold overlap_handler
  by_cases hle : c.start ≤ a.start <;>
    intro x hx <;>
    simp only [hle, if_pos, if_neg, if_true, if_false, List.mem_cons, List.not_mem_nil,
      or_false] at hx <;>
    rcases hx with rfl | rfl | rfl <;>
    refine ⟨?_, ?_, rfl⟩ <;> simp <;> omega

theorem mergeLoop_invariant (text : List Char) :
    ∀ f q m r, mergeLoop text f q m = some r →
      (∀ a ∈ q, wfAnn text a) → (∀ a ∈ m, wfAnn text a ∧ a.start < a.end_) →
      List.Pairwise DisjAnn m →
      (∀ a ∈ r, wfAnn text a ∧ a.start < a.end_) ∧ List.Pairwise DisjAnn r := by
  intro f
  induction f with
  | zero => intro q m r h; cases h
  | succ f ih =>
    intro q m r h hq hm hdis
    cases q with
    | nil =>
      injection h with h
      subst h
      exact ⟨hm, hdis⟩
    | cons current rest =>
      have hcw : wfAnn text current := hq current (List.mem_cons_self current rest)
      have hrest : ∀ a ∈ rest, wfAnn text a :=
        fun a ha => hq a (List.mem_cons_of_mem current ha)
      by_cases hdeg : current.start = current.end_
      · simp only [mergeLoop, if_pos hdeg] at h
        exact ih rest m r h hrest hm hdis
      · simp only [mergeLoop, if_neg hdeg] at h
        have hc : current.start < current.end_ := lt_of_le_of_ne hcw.1 hdeg
        cases hscan : scanMerged current (sort_by_start m) with
        | append =>
          rw [hscan] at h
          have hsorted : List.Sorted startLe (sort_by_start m) :=
            List.sorted_insertionSort startLe m
          have hdisall : ∀ a ∈ m, DisjAnn current a := by
            intro a ha
            exact scanMerged_append_disj hsorted
              (fun x hx => (hm x ((List.mem_insertionSort startLe).1 hx)).2) hc hscan a
              ((List.mem_insertionSort startLe).2 ha)
          apply ih rest (m ++ [current]) r h hrest
          · intro a ha
            rcases List.mem_append.1 ha with h1 | h1
            · exact hm a h1
            · rcases List.mem_singleton.1 h1 with rfl
              exact ⟨hcw, hc⟩
          · rw [List.pairwise_append]
            refine ⟨hdis, List.pairwise_singleton _ _, ?_⟩
            intro a ha b hb
            rcases List.mem_singleton.1 hb with rfl
            exact DisjAnn_symm (hdisall a ha)
        | split a =>
          rw [hscan] at h
          obtain ⟨hmem, hov⟩ := scanMerged_split hscan
          unfold sort_by_start at hmem
          rw [List.mem_insertionSort] at hmem
          obtain ⟨haw, halt⟩ := hm a hmem
          apply ih (overlap_handler current a text ++ rest) (m.erase a) r h
          · intro x hx
            rcases List.mem_append.1 hx with h1 | h1
            · exact overlap_handler_wf text hcw haw hc halt hov x h1
            · exact hrest x h1
          · intro x hx
            exact hm x (List.mem_of_mem_erase hx)
          · exact hdis.sublist (List.erase_sublist a m)


theorem chainEnd_ge :
    ∀ (l : List Ann) (i : Nat), chainFrom i l → (∀ a ∈ l, a.start ≤ a.end_) →
      i ≤ chainEnd i l := by
  intro l
  induction l with
  | nil => intro i _ _; exact le_rfl
  | cons a rest ih =>
    intro i hch hwf
    obtain ⟨hstart, hrest⟩ := hch
    have h1 : a.end_ ≤ chainEnd a.end_ rest :=
      ih a.end_ hrest (fun x hx => hwf x (List.mem_cons_of_mem a hx))
    have h2 : a.start ≤ a.end_ := hwf a (List.mem_cons_self a rest)
    show i ≤ chainEnd a.end_ rest
    omega

theorem chain_start_ge :
    ∀ (l : List Ann) (i : Nat), chainFrom i l → (∀ a ∈ l, a.start ≤ a.end_) →
      ∀ a ∈ l, i ≤ a.start := by
  intro l
  induction l with
  | nil => intro i _ _ a ha; cases ha
  | cons b rest ih =>
    intro i hch hwf a ha
    obtain ⟨hstart, hrest⟩ := hch
    rcases List.mem_cons.1 ha with rfl | ha2
    · omega
    · have h1 := ih b.end_ hrest (fun x hx => hwf x (List.mem_cons_of_mem b hx)) a ha2
      have h2 : b.start ≤ b.end_ := hwf b (List.mem_cons_self b rest)
      omega

theorem chain_pairwise_sep :
    ∀ (l : List Ann) (i : Nat), chainFrom i l → (∀ a ∈ l, a.start ≤ a.end_) →
      List.Pairwise (fun a b : Ann => a.end_ ≤ b.start) l := by
  intro l
  induction l with
  | nil => intro _ _ _; exact List.Pairwise.nil
  | cons a rest ih =>
    intro i hch hwf
    obtain ⟨hstart, hrest⟩ := hch
    refine List.pairwise_cons.2 ⟨?_, ih a.end_ hrest
      (fun x hx => hwf x (List.mem_cons_of_mem a hx))⟩
    intro b hb
    exact chain_start_ge rest a.end_ hrest
      (fun x hx => hwf x (List.mem_cons_of_mem a hx)) b hb

theorem chainFrom_append :
    ∀ (l1 l2 : List Ann) (i : Nat), chainFrom i l1 → chainFrom (chainEnd i l1) l2 →
      chainFrom i (l1 ++ l2) := by
  intro l1
  induction l1 with
  | nil => intro l2 i _ h2; exact h2
  | cons a rest ih =>
    intro l2 i h1 h2
    obtain ⟨hstart, hrest⟩ := h1
    exact ⟨hstart, ih l2 a.end_ hrest h2⟩

theorem chainEnd_append :
    ∀ (l1 l2 : List Ann) (i : Nat), chainEnd i (l1 ++ l2) = chainEnd (chainEnd i l1) l2 := by
  intro l1
  induction l1 with
  | nil => intro l2 i; rfl
  | cons a rest ih => intro l2 i; exact ih l2 a.end_

theorem chainEnd_le :
    ∀ (l : List Ann) (i n : Nat), chainFrom i l → (∀ a ∈ l, a.end_ ≤ n) → i ≤ n →
      chainEnd i l ≤ n := by
  intro l
  induction l with
  | nil => intro i n _ _ h; exact h
  | cons a rest ih =>
    intro i n hch hwf hi
    obtain ⟨hstart, hrest⟩ := hch
    exact ih a.end_ n hrest (fun x hx => hwf x (List.mem_cons_of_mem a hx))
      (hwf a (List.mem_cons_self a rest))

theorem pySlice_append {text : List Char} {i j k : Nat} (h1 : i ≤ j) (h2 : j ≤ k) :
    pySlice text i k = pySlice text i j ++ pySlice text j k := by
  unfold pySlice
  have hk : k - i = (j - i) + (k - j) := by omega
  have hd : List.drop (j - i) (List.drop i text) = List.drop j text := by
    rw [List.drop_drop]
    congr 1
    omega
  rw [hk, List.take_add, hd]

theorem chain_concat :
    ∀ (l : List Ann) (i : Nat) (text : List Char), chainFrom i l →
      (∀ a ∈ l, a.start ≤ a.end_ ∧ a.text = pySlice text a.start a.end_) →
      (l.map Ann.text).flatten = pySlice text i (chainEnd i l) := by
  intro l
  induction l with
  | nil =>
    intro i text _ _
    show ([] : List Char) = pySlice text i i
    unfold pySlice
    rw [Nat.sub_self]
    simp
  | cons a rest ih =>
    intro i text hch hwf
    obtain ⟨hstart, hrest⟩ := hch
    obtain ⟨hord, htext⟩ := hwf a (List.mem_cons_self a rest)
    have hwfr : ∀ x ∈ rest, x.start ≤ x.end_ ∧ x.text = pySlice text x.start x.end_ :=
      fun x hx => hwf x (List.mem_cons_of_mem a hx)
    have hce : a.end_ ≤ chainEnd a.end_ rest :=
      chainEnd_ge rest a.end_ hrest (fun x hx => (hwfr x hx).1)
    subst hstart
    show a.text ++ (rest.map Ann.text).flatten = pySlice text a.start (chainEnd a.end_ rest)
    rw [htext, ih a.end_ text hrest hwfr]
    exact (pySlice_append hord hce).symm

theorem gapFill_chain (text : List Char) (noneValue : String) :
    ∀ (l : List Ann) (i : Nat), List.Sorted startLe l → List.Pairwise DisjAnn l →
      (∀ a ∈ l, wfAnn text a ∧ a.start < a.end_) → (∀ a ∈ l, i ≤ a.start) →
      chainFrom i (gapFillAux text noneValue i l) ∧
      (∀ a ∈ gapFillAux text noneValue i l, wfAnn text a ∧ a.start < a.end_) ∧
      chainEnd i (gapFillAux text noneValue i l) = chainEnd i l := by
  intro l
  induction l with
  | nil =>
    intro i _ _ _ _
    exact ⟨trivial, fun a ha => absurd ha (List.not_mem_nil a), rfl⟩
  | cons a rest ih =>
    intro i hsort hdis hwf hge
    have hsep : ∀ b ∈ rest, a.end_ ≤ b.start := by
      intro b hb
      have hab : a.start ≤ b.start := (List.sorted_cons.1 hsort).1 b hb
      have hd : DisjAnn a b := (List.pairwise_cons.1 hdis).1 b hb
      have hbnd : b.start < b.end_ := (hwf b (List.mem_cons_of_mem a hb)).2
      rcases hd with h | h
      · exact h
      · omega
    obtain ⟨haw, hand⟩ := hwf a (List.mem_cons_self a rest)
    have hwfr : ∀ x ∈ rest, wfAnn text x ∧ x.start < x.end_ :=
      fun x hx => hwf x (List.mem_cons_of_mem a hx)
    obtain ⟨ihch, ihwf, ihend⟩ := ih a.end_ (List.sorted_cons.1 hsort).2
      (List.pairwise_cons.1 hdis).2 hwfr hsep
    have hia : i ≤ a.start := hge a (List.mem_cons_self a rest)
    by_cases hgap : i < a.start
    · have hout : gapFillAux text noneValue i (a :: rest) =
          noneSpan text noneValue i a.start :: a :: gapFillAux text noneValue a.end_ rest := by
        simp only [gapFillAux, if_pos hgap, List.singleton_append]
      rw [hout]
      have hastart : a.start ≤ text.length := le_trans haw.1 haw.2.1
      refine ⟨⟨rfl, rfl, ihch⟩, ?_, ?_⟩
      · intro x hx
        rcases List.mem_cons.1 hx with rfl | hx2
        · exact ⟨⟨le_of_lt hgap, hastart, rfl⟩, hgap⟩
        · rcases List.mem_cons.1 hx2 with rfl | hx3
          · exact ⟨haw, hand⟩
          · exact ihwf x hx3
      · show chainEnd a.end_ (gapFillAux text noneValue a.end_ rest) = chainEnd a.end_ rest
        exact ihend
    · have hstarteq : a.start = i := by omega
      have hout : gapFillAux text noneValue i (a :: rest) =
          a :: gapFillAux text noneValue a.end_ rest := by
        simp only [gapFillAux, if_neg hgap, List.nil_append]
      rw [hout]
      refine ⟨⟨hstarteq, ihch⟩, ?_, ?_⟩
      · intro x hx
        rcases List.mem_cons.1 hx with rfl | hx2
        · exact ⟨haw, hand⟩
        · exact ihwf x hx2
      · show chainEnd a.end_ (gapFillAux text noneValue a.end_ rest) = chainEnd a.end_ rest
        exact ihend


theorem foldl_max_chain :
    ∀ (l : List Ann) (i b : Nat), chainFrom i l → (∀ a ∈ l, a.start ≤ a.end_) → i ≤ b →
      List.foldl max b (l.map Ann.end_) = max b (chainEnd i l) := by
  intro l
  induction l with
  | nil =>
    intro i b _ _ hib
    show b = max b i
    omega
  | cons a rest ih =>
    intro i b hch hwf hib
    obtain ⟨hstart, hrest⟩ := hch
    have hwfr : ∀ x ∈ rest, x.start ≤ x.end_ :=
      fun x hx => hwf x (List.mem_cons_of_mem a hx)
    show List.foldl max (max b a.end_) (rest.map Ann.end_) = max b (chainEnd a.end_ rest)
    rw [ih a.end_ (max b a.end_) hrest hwfr (le_max_right _ _)]
    have hce : a.end_ ≤ chainEnd a.end_ rest := chainEnd_ge rest a.end_ hrest hwfr
    omega

theorem chain_maxQ (l : List Ann) (i : Nat) (hch : chainFrom i l)
    (hwf : ∀ a ∈ l, a.start ≤ a.end_) (hne : l ≠ []) :
    (l.map Ann.end_).max? = some (chainEnd i l) := by
  cases l with
  | nil => exact absurd rfl hne
  | cons a rest =>
    obtain ⟨hstart, hrest⟩ := hch
    have hwfr : ∀ x ∈ rest, x.start ≤ x.end_ :=
      fun x hx => hwf x (List.mem_cons_of_mem a hx)
    show some (List.foldl max a.end_ (rest.map Ann.end_)) = some (chainEnd a.end_ rest)
    rw [foldl_max_chain rest a.end_ a.end_ hrest hwfr le_rfl]
    have hce : a.end_ ≤ chainEnd a.end_ rest := chainEnd_ge rest a.end_ hrest hwfr
    rw [max_eq_right hce]

/-- Claim C1: for every document (inputs satisfying the data model: spans in
bounds, `start <= end`, cached text the matching slice), if
`indico_to_finetune_sequence`'s per-document conversion succeeds then the
returned substrings concatenated in order equal the raw text exactly, the
underlying spans are pairwise non-overlapping and ordered by ascending
start, and the substring list and label list have equal length. -/
theorem claim_c1_partition_invariant (text : List Char) (labelSeq : List RawAnn)
    (noneValue : String) (out : List Ann)
    (hwf : ∀ r ∈ labelSeq, r.start ≤ r.end_ ∧ r.end_ ≤ text.length ∧
      r.text = pySlice text r.start r.end_)
    (h : processDocument text labelSeq true noneValue = .ok out) :
    (docSubseqs out).flatten = text ∧
    List.Pairwise (fun a b : Ann => a.end_ ≤ b.start) out ∧
    List.Sorted startLe out ∧
    (docSubseqs out).length = (docLabels out).length := by
  simp only [processDocument] at h
  cases hm : mergeLoop text (mergeMeasure (initQueue labelSeq) []) (initQueue labelSeq) [] with
  | none => simp only [hm] at h; cases h
  | some merged =>
    simp only [hm] at h
    have hq : ∀ a ∈ initQueue labelSeq, wfAnn text a := by
      intro a ha
      obtain ⟨r, hr, rfl⟩ := mem_initQueue.1 ha
      exact hwf r hr
    obtain ⟨hmw, hmdis⟩ := mergeLoop_invariant text _ _ [] merged hm hq
      (fun a ha => absurd ha (List.not_mem_nil a)) List.Pairwise.nil
    have hsorted : List.Sorted startLe (sort_by_start merged) :=
      List.sorted_insertionSort startLe merged
    have hsmw : ∀ a ∈ sort_by_start merged, wfAnn text a ∧ a.start < a.end_ := by
      intro a ha
      unfold sort_by_start at ha
      exact hmw a ((List.mem_insertionSort startLe).1 ha)
    have hsmdis : List.Pairwise DisjAnn (sort_by_start merged) :=
      ((List.perm_insertionSort startLe merged).pairwise_iff
        (fun hab => DisjAnn_symm hab)).2 hmdis
    obtain ⟨hch, hgw, hge⟩ := gapFill_chain text noneValue (sort_by_start merged) 0
      hsorted hsmdis hsmw (fun a _ => Nat.zero_le _)
    cases hx : ((gapFillAux text noneValue 0 (sort_by_start merged)).map Ann.end_).max? with
    | none => simp only [hx] at h; cases h
    | some endIdx =>
      simp only [hx, if_true] at h
      have hbne : gapFillAux text noneValue 0 (sort_by_start merged) ≠ [] := by
        intro hemp
        rw [hemp] at hx
        cases hx
      have hmax := chain_maxQ (gapFillAux text noneValue 0 (sort_by_start merged)) 0 hch
        (fun a ha => (hgw a ha).1.1) hbne
      rw [hmax] at hx
      injection hx with hx
      have hle : chainEnd 0 (gapFillAux text noneValue 0 (sort_by_start merged)) ≤ text.length :=
        chainEnd_le _ 0 text.length hch (fun a ha => (hgw a ha).1.2.1) (Nat.zero_le _)
      injection h with h
      subst h
      -- name the final list
      have houtch : chainFrom 0 (gapFillAux text noneValue 0 (sort_by_start merged) ++
          (if endIdx ≠ text.length then [noneSpan text noneValue endIdx text.length] else [])) := by
        apply chainFrom_append _ _ 0 hch
        rw [hge] at hx
        by_cases ht : endIdx ≠ text.length
        · rw [if_pos ht]
          rw [← hge] at hx
          exact ⟨by rw [hx]; rfl, trivial⟩
        · rw [if_neg ht]
          trivial
      have houtwf : ∀ a ∈ gapFillAux text noneValue 0 (sort_by_start merged) ++
          (if endIdx ≠ text.length then [noneSpan text noneValue endIdx text.length] else []),
          wfAnn text a := by
        intro a ha
        rcases List.mem_append.1 ha with h1 | h1
        · exact (hgw a h1).1
        · by_cases ht : endIdx ≠ text.length
          · rw [if_pos ht] at h1
            rcases List.mem_singleton.1 h1 with rfl
            refine ⟨?_, le_rfl, rfl⟩
            rw [← hx]
            exact hle
          · rw [if_neg ht] at h1
            cases h1
      have houtend : chainEnd 0 (gapFillAux text noneValue 0 (sort_by_start merged) ++
          (if endIdx ≠ text.length then [noneSpan text noneValue endIdx text.length] else [])) =
          text.length := by
        rw [chainEnd_append]
        by_cases ht : endIdx ≠ text.length
        · rw [if_pos ht]
          rfl
        · rw [if_neg ht]
          push_neg at ht
          show chainEnd 0 (gapFillAux text noneValue 0 (sort_by_start merged)) = text.length
          omega
      refine ⟨?_, ?_, ?_, ?_⟩
      · show ((gapFillAux text noneValue 0 (sort_by_start merged) ++ _).map Ann.text).flatten = text
        rw [chain_concat _ 0 text houtch (fun a ha => ⟨(houtwf a ha).1, (houtwf a ha).2.2⟩)]
        rw [houtend]
        unfold pySlice
        simp
      · exact chain_pairwise_sep _ 0 houtch (fun a ha => (houtwf a ha).1)
      · have hp := chain_pairwise_sep _ 0 houtch (fun a ha => (houtwf a ha).1)
        refine hp.imp_of_mem ?_
        intro a b ha hb hab
        have : a.start ≤ a.end_ := (houtwf a ha).1
        exact Nat.le_trans this hab
      · simp [docSubseqs, docLabels]

/-- Witness for C1 at a concrete document with one annotation and a trailing
gap. -/
theorem claim_c1_witness :
    (docSubseqs [⟨0, 2, {"X"}, String.toList "ab"⟩, ⟨2, 3, {"<PAD>"}, ['c']⟩]).flatten =
        String.toList "abc" ∧
    List.Pairwise (fun a b : Ann => a.end_ ≤ b.start)
      [⟨0, 2, {"X"}, String.toList "ab"⟩, ⟨2, 3, {"<PAD>"}, ['c']⟩] ∧
    List.Sorted startLe [⟨0, 2, {"X"}, String.toList "ab"⟩, ⟨2, 3, {"<PAD>"}, ['c']⟩] ∧
    (docSubseqs [⟨0, 2, {"X"}, String.toList "ab"⟩, ⟨2, 3, {"<PAD>"}, ['c']⟩]).length =
      (docLabels [⟨0, 2, {"X"}, String.toList "ab"⟩, ⟨2, 3, {"<PAD>"}, ['c']⟩]).length :=
  claim_c1_partition_invariant (String.toList "abc") [⟨0, 2, "X", String.toList "ab"⟩]
    "<PAD>" [⟨0, 2, {"X"}, String.toList "ab"⟩, ⟨2, 3, {"<PAD>"}, ['c']⟩]
    (by decide) (by decide)

theorem scanMerged_all_false {current : Ann} :
    ∀ {l : List Ann}, (∀ a ∈ l, overlap current a = false) →
      scanMerged current l = .append := by
  intro l
  induction l with
  | nil => intro _; rfl
  | cons b rest ih =>
    intro h
    simp only [scanMerged]
    by_cases h1 : current.end_ < b.start
    · rw [if_pos h1]
    · rw [if_neg h1, h b (List.mem_cons_self b rest)]
      simp only [Bool.false_eq_true, if_false]
      exact ih (fun a ha => h a (List.mem_cons_of_mem b ha))

theorem disj_overlap_false {c a : Ann} (hc : c.start < c.end_) (ha : a.start < a.end_)
    (hd : DisjAnn c a) : overlap c a = false := by
  by_cases h : overlap c a = true
  · have := overlap_intersect hc ha h
    unfold DisjAnn at hd
    omega
  · exact Bool.eq_false_iff.2 h

theorem mergeLoop_no_split (text : List Char) :
    ∀ f q m, (∀ a ∈ q, a.start < a.end_) → (∀ a ∈ m, a.start < a.end_) →
      List.Pairwise DisjAnn q → (∀ a ∈ q, ∀ b ∈ m, DisjAnn a b) →
      mergeMeasure q m ≤ f →
      mergeLoop text f q m = some (m ++ q) := by
  intro f
  induction f with
  | zero =>
    intro q m _ _ _ _ hf
    unfold mergeMeasure at hf
    omega
  | succ f ih =>
    intro q m hq hm hpq hqm hf
    cases q with
    | nil => simp [mergeLoop]
    | cons current rest =>
      have hc : current.start < current.end_ := hq current (List.mem_cons_self current rest)
      have hdeg : ¬ current.start = current.end_ := by omega
      simp only [mergeLoop, if_neg hdeg]
      have hsc : scanMerged current (sort_by_start m) = .append := by
        apply scanMerged_all_false
        intro a ha
        unfold sort_by_start at ha
        rw [List.mem_insertionSort] at ha
        exact disj_overlap_false hc (hm a ha)
          (hqm current (List.mem_cons_self current rest) a ha)
      rw [hsc]
      have hcons := mergeMeasure_cons current rest m
      have happ := mergeMeasure_append_elem rest m current
      have hres := ih rest (m ++ [current])
        (fun a ha => hq a (List.mem_cons_of_mem current ha))
        (by
          intro a ha
          rcases List.mem_append.1 ha with h1 | h1
          · exact hm a h1
          · rcases List.mem_singleton.1 h1 with rfl
            exact hc)
        (List.pairwise_cons.1 hpq).2
        (by
          intro a ha b hb
          rcases List.mem_append.1 hb with h1 | h1
          · exact hqm a (List.mem_cons_of_mem current ha) b h1
          · rcases List.mem_singleton.1 h1 with rfl
            exact DisjAnn_symm ((List.pairwise_cons.1 hpq).1 a ha))
        (by omega)
      rw [hres]
      rw [List.append_assoc, List.singleton_append]

theorem gapFill_id (text : List Char) (noneValue : String) :
    ∀ (l : List Ann) (i : Nat), chainFrom i l → gapFillAux text noneValue i l = l := by
  intro l
  induction l with
  | nil => intro i _; rfl
  | cons a rest ih =>
    intro i hch
    obtain ⟨hstart, hrest⟩ := hch
    have hgap : ¬ i < a.start := by omega
    simp only [gapFillAux, if_neg hgap, List.nil_append]
    rw [ih a.end_ hrest]

theorem chainFromRaw_map :
    ∀ (l : List RawAnn) (i : Nat), chainFromRaw i l → chainFrom i (l.map wrapAnn) := by
  intro l
  induction l with
  | nil => intro i _; trivial
  | cons a rest ih =>
    intro i hch
    obtain ⟨hstart, hrest⟩ := hch
    exact ⟨hstart, ih a.end_ hrest⟩

theorem chainEndRaw_map :
    ∀ (l : List RawAnn) (i : Nat), chainEnd i (l.map wrapAnn) = chainEndRaw i l := by
  intro l
  induction l with
  | nil => intro i; rfl
  | cons a rest ih => intro i; exact ih a.end_

theorem processDocument_tiling (text : List Char) (noneValue : String) (anns : List RawAnn)
    (hch : chainFromRaw 0 anns) (hend : chainEndRaw 0 anns = text.length)
    (hnd : ∀ a ∈ anns, a.start < a.end_) (hne : anns ≠ []) :
    processDocument text anns true noneValue = .ok (anns.map wrapAnn) := by
  have hchm := chainFromRaw_map anns 0 hch
  have hndm : ∀ a ∈ anns.map wrapAnn, a.start < a.end_ := by
    intro a ha
    obtain ⟨r, hr, rfl⟩ := List.mem_map.1 ha
    exact hnd r hr
  have word : ∀ a ∈ anns.map wrapAnn, a.start ≤ a.end_ := fun a ha => le_of_lt (hndm a ha)
  have hpair := chain_pairwise_sep (anns.map wrapAnn) 0 hchm word
  have hdism : List.Pairwise DisjAnn (anns.map wrapAnn) := hpair.imp (fun h => Or.inl h)
  have hsortm : List.Sorted startLe (anns.map wrapAnn) := by
    refine hpair.imp_of_mem ?_
    intro a b ha hb hab
    exact Nat.le_trans (word a ha) hab
  have hsortraw : List.Sorted startLeRaw anns := by
    have h1 : List.Pairwise (fun a b => startLe (wrapAnn a) (wrapAnn b)) anns :=
      List.pairwise_map.1 hsortm
    exact h1
  have hQ : initQueue anns = anns.map wrapAnn := by
    rw [initQueue_eq]
    unfold sort_by_start_raw
    rw [List.Sorted.insertionSort_eq hsortraw]
  have hml : mergeLoop text (mergeMeasure (initQueue anns) []) (initQueue anns) [] =
      some (anns.map wrapAnn) := by
    rw [hQ]
    have h := mergeLoop_no_split text (mergeMeasure (anns.map wrapAnn) [])
      (anns.map wrapAnn) [] hndm (fun a ha => absurd ha (List.not_mem_nil a)) hdism
      (fun a _ b hb => absurd hb (List.not_mem_nil b)) le_rfl
    simpa using h
  have hnem : anns.map wrapAnn ≠ [] := by
    intro hemp
    exact hne (List.map_eq_nil.1 hemp)
  have hsorteq : sort_by_start (anns.map wrapAnn) = anns.map wrapAnn := by
    unfold sort_by_start
    exact List.Sorted.insertionSort_eq hsortm
  simp only [processDocument, hml, hsorteq, gapFill_id text noneValue (anns.map wrapAnn) 0 hchm,
    chain_maxQ (anns.map wrapAnn) 0 hchm word hnem, chainEndRaw_map, hend]
  simp

theorem pySlice_length {text : List Char} {s e : Nat} (h1 : s ≤ e) (h2 : e ≤ text.length) :
    (pySlice text s e).length = e - s := by
  unfold pySlice
  rw [List.length_take, List.length_drop]
  omega

theorem processLabel_step (text : List Char) (spacyStarts spacyEnds : List Nat)
    (noneValue : String) (st : ReconState) (sub : List Char) (lab : String)
    (s e : Nat) (hfind : pyFind text (pyStrip sub) st.cursor = (s : Int))
    (hlen : (pyStrip sub).length = e - s) (hse : s ≤ e)
    (hlab : lab ≠ noneValue)
    (hfresh : (s, e, lab) ∉ st.ranges) :
    processLabel text spacyStarts spacyEnds noneValue true true sub lab st =
      .ok { st with
              cursor := (s : Int)
              ranges := st.ranges ++ [(s, e, lab)]
              anns := st.anns ++ [⟨s, e, lab, pySlice text s e⟩] } := by
  simp only [processLabel]
  rw [hfind]
  rw [if_neg (by omega : ¬ (s : Int) = -1)]
  have h1 : ((s : Int)).toNat = s := Int.toNat_ofNat s
  have h2 : ((s : Int) + ((pyStrip sub).length : Int)).toNat = e := by
    rw [hlen]
    omega
  simp only [h1, h2, if_true]
  rw [if_neg hlab]
  unfold emitAnn
  simp only [if_neg hfresh]

theorem processCandidates_tiling (text : List Char) (spacyStarts spacyEnds : List Nat)
    (noneValue : String) :
    ∀ (suffix : List RawAnn) (st : ReconState),
      findsSelf text st.cursor suffix →
      (∀ a ∈ suffix, pyStrip a.text = a.text ∧ a.text = pySlice text a.start a.end_ ∧
        a.end_ ≤ text.length ∧ a.start < a.end_ ∧ a.label ≠ noneValue) →
      (∀ t ∈ st.ranges, ∀ a ∈ suffix, t.1 < a.start) →
      List.Pairwise (fun a b : RawAnn => a.start < b.start) suffix →
      ∃ st2, processCandidates text spacyStarts spacyEnds noneValue true
          (suffix.map (fun a => (a.text, RawLabel.tuple [a.label]))) st = .ok st2 ∧
        st2.anns = st.anns ++ suffix.map (reconAnn text) := by
  intro suffix
  induction suffix with
  | nil =>
    intro st _ _ _ _
    exact ⟨st, rfl, by simp⟩
  | cons a rest ih =>
    intro st hfind hwf hfresh hpair
    obtain ⟨hfa, hfrest⟩ := hfind
    obtain ⟨hstrip, htext, hlen, hnd, hlab⟩ := hwf a (List.mem_cons_self a rest)
    have hlenstr : (pyStrip a.text).length = a.end_ - a.start := by
      rw [hstrip, htext]
      exact pySlice_length (le_of_lt hnd) hlen
    have hnotmem : (a.start, a.end_, a.label) ∉ st.ranges := by
      intro hmem
      have := hfresh _ hmem a (List.mem_cons_self a rest)
      simp at this
    have hstep := processLabel_step text spacyStarts spacyEnds noneValue st a.text a.label
      a.start a.end_ hfa hlenstr (le_of_lt hnd) hlab hnotmem
    have hrec := ih
      { st with
          cursor := (a.start : Int)
          ranges := st.ranges ++ [(a.start, a.end_, a.label)]
          anns := st.anns ++ [⟨a.start, a.end_, a.label, pySlice text a.start a.end_⟩] }
      hfrest
      (fun x hx => hwf x (List.mem_cons_of_mem a hx))
      (by
        intro t ht b hb
        rcases List.mem_append.1 ht with h1 | h1
        · exact hfresh t h1 b (List.mem_cons_of_mem a hb)
        · rcases List.mem_singleton.1 h1 with rfl
          exact (List.pairwise_cons.1 hpair).1 b hb)
      (List.pairwise_cons.1 hpair).2
    obtain ⟨st3, hst3, hanns3⟩ := hrec
    refine ⟨st3, ?_, ?_⟩
    · simp only [List.map_cons, processCandidates, List.foldlM, processCandidate,
        RawLabel.labelList, RawLabel.isTuple, hstep]
      simp only [processCandidates, List.foldlM] at hst3
      simpa using hst3
    · rw [hanns3]
      simp [reconAnn]

theorem zip_map_same {α β γ : Type} (f : α → β) (g : α → γ) :
    ∀ l : List α, (l.map f).zip (l.map g) = l.map (fun x => (f x, g x)) := by
  intro l
  induction l with
  | nil => rfl
  | cons a t ih => simp [ih]

theorem labelTuple_singleton (x : String) : labelTuple {x} = [x] := rfl

/-- C3 (amended): for a document whose annotations are non-overlapping,
non-degenerate and fully cover the raw text, whose labels differ from the
none-value, whose substring texts carry no leading or trailing whitespace,
and where each span text is first found at its own start when searched from
the previous span's start (so the text-search relocation cannot drift),
converting with `indico_to_finetune_sequence` and back with
`finetune_to_indico_sequence` (subtoken predictions enabled, i.e. no
snapping) reproduces the original `(start, end, label)` triples exactly. -/
theorem claim_c3_round_trip_amended (text : List Char) (noneValue : String)
    (anns : List RawAnn) (spacyStarts spacyEnds : List Nat)
    (hch : chainFromRaw 0 anns) (hend : chainEndRaw 0 anns = text.length)
    (hwf : ∀ a ∈ anns, a.start < a.end_ ∧ a.end_ ≤ text.length ∧
      a.text = pySlice text a.start a.end_)
    (hlab : ∀ a ∈ anns, a.label ≠ noneValue)
    (hstrip : ∀ a ∈ anns, pyStrip a.text = a.text)
    (hfind : findsSelf text 0 anns)
    (hne : anns ≠ []) :
    processDocument text anns true noneValue = .ok (anns.map wrapAnn) ∧
    finetune_to_indico_doc text (docSubseqs (anns.map wrapAnn))
        ((docLabels (anns.map wrapAnn)).map RawLabel.tuple)
        spacyStarts spacyEnds noneValue true = .ok (anns.map (reconAnn text)) ∧
    (anns.map (reconAnn text)).map (fun x => (x.start, x.end_, x.label)) =
      anns.map (fun a => (a.start, a.end_, a.label)) := by
  have hA := processDocument_tiling text noneValue anns hch hend (fun a ha => (hwf a ha).1) hne
  refine ⟨hA, ?_, ?_⟩
  · -- candidate list
    have hcands : (docSubseqs (anns.map wrapAnn)).zip
        ((docLabels (anns.map wrapAnn)).map RawLabel.tuple) =
        anns.map (fun a => (a.text, RawLabel.tuple [a.label])) := by
      unfold docSubseqs docLabels
      rw [List.map_map, List.map_map, List.map_map]
      rw [zip_map_same]
      apply List.map_congr_left
      intro a _
      show (a.text, RawLabel.tuple (labelTuple {a.label})) = (a.text, RawLabel.tuple [a.label])
      rw [labelTuple_singleton]
    -- strict pairwise starts
    have hchm := chainFromRaw_map anns 0 hch
    have word : ∀ a ∈ anns.map wrapAnn, a.start ≤ a.end_ := by
      intro a ha
      obtain ⟨r, hr, rfl⟩ := List.mem_map.1 ha
      exact le_of_lt (hwf r hr).1
    have hpairm := chain_pairwise_sep (anns.map wrapAnn) 0 hchm word
    have hpairraw : List.Pairwise (fun a b : RawAnn => a.end_ ≤ b.start) anns := by
      have h1 : List.Pairwise (fun a b : RawAnn =>
          (wrapAnn a).end_ ≤ (wrapAnn b).start) anns := List.pairwise_map.1 hpairm
      exact h1
    have hpairs : List.Pairwise (fun a b : RawAnn => a.start < b.start) anns := by
      refine hpairraw.imp_of_mem ?_
      intro a b ha _ hab
      exact Nat.lt_of_lt_of_le (hwf a ha).1 hab
    obtain ⟨st2, hst2, hanns⟩ := processCandidates_tiling text spacyStarts spacyEnds noneValue
      anns ⟨0, 0, 0, [], []⟩ hfind
      (fun a ha => ⟨hstrip a ha, (hwf a ha).2.2, (hwf a ha).2.1, (hwf a ha).1, hlab a ha⟩)
      (fun t ht => absurd ht (List.not_mem_nil t))
      hpairs
    have hsortout : sortIndByStart (anns.map (reconAnn text)) = anns.map (reconAnn text) := by
      unfold sortIndByStart
      apply List.Sorted.insertionSort_eq
      apply List.pairwise_map.2
      refine hpairs.imp_of_mem ?_
      intro a b _ _ hab
      exact le_of_lt hab
    simp only [finetune_to_indico_doc, hcands, hst2]
    simp only [List.nil_append] at hanns
    simp [hanns, hsortout]
  · rw [List.map_map]
    rfl

/-- Witness for the amended C3 on the two-span document `text="ab"`,
spans `[0,1)->X` and `[1,2)->Y`. -/
theorem claim_c3_witness :
    processDocument (String.toList "ab") [⟨0, 1, "X", ['a']⟩, ⟨1, 2, "Y", ['b']⟩]
        true "<PAD>" =
      .ok ([⟨0, 1, "X", ['a']⟩, ⟨1, 2, "Y", ['b']⟩].map wrapAnn) ∧
    finetune_to_indico_doc (String.toList "ab")
        (docSubseqs ([⟨0, 1, "X", ['a']⟩, ⟨1, 2, "Y", ['b']⟩].map wrapAnn))
        ((docLabels ([⟨0, 1, "X", ['a']⟩, ⟨1, 2, "Y", ['b']⟩].map wrapAnn)).map RawLabel.tuple)
        [] [] "<PAD>" true =
      .ok ([⟨0, 1, "X", ['a']⟩, ⟨1, 2, "Y", ['b']⟩].map (reconAnn (String.toList "ab"))) ∧
    (([⟨0, 1, "X", ['a']⟩, ⟨1, 2, "Y", ['b']⟩].map (reconAnn (String.toList "ab"))).map
        (fun x => (x.start, x.end_, x.label))) =
      [⟨0, 1, "X", ['a']⟩, ⟨1, 2, "Y", ['b']⟩].map (fun a : RawAnn => (a.start, a.end_, a.label)) :=
  claim_c3_round_trip_amended (String.toList "ab") "<PAD>"
    [⟨0, 1, "X", ['a']⟩, ⟨1, 2, "Y", ['b']⟩] [] []
    ⟨rfl, rfl, trivial⟩ (by decide) (by decide) (by decide) (by decide)
    ⟨by decide, by decide, trivial⟩ (by decide)

/-- C3 counterexample as literally claimed: the document `"aa"` with the
non-overlapping, fully-covering annotations `(0,1,"X")` and `(1,2,"Y")` (both
with text `"a"`) converts to substrings and back, but the reconstruction
relocates the second span by text search from the cursor left at the first
find's start position, finds `"a"` again at index 0, and returns
`(0,1,"X")` and `(0,1,"Y")` — not the original triples. -/
theorem claim_c3_counterexample :
    processDocument (String.toList "aa") [⟨0, 1, "X", ['a']⟩, ⟨1, 2, "Y", ['a']⟩]
        true "<PAD>" =
      .ok [⟨0, 1, {"X"}, ['a']⟩, ⟨1, 2, {"Y"}, ['a']⟩] ∧
    finetune_to_indico_doc (String.toList "aa")
        (docSubseqs [⟨0, 1, {"X"}, ['a']⟩, ⟨1, 2, {"Y"}, ['a']⟩])
        ((docLabels [⟨0, 1, {"X"}, ['a']⟩, ⟨1, 2, {"Y"}, ['a']⟩]).map RawLabel.tuple)
        [] [] "<PAD>" true =
      .ok [⟨0, 1, "X", ['a']⟩, ⟨0, 1, "Y", ['a']⟩] ∧
    ¬ ([(0, 1, "X"), (0, 1, "Y")] : List (Nat × Nat × String)) =
        [(0, 1, "X"), (1, 2, "Y")] := by
  refine ⟨by decide, by decide, by decide⟩

end SeqEncoder
